import Mathlib

/-!
# A verification development for `hash_map.h`

`HashMap<KeyType, ValueType, Hash>` keeps its entries in a `std::list`
(`elements_list_`) and indexes them through a `std::vector` of chains
(`table_`); a chain holds `std::list` iterators into `elements_list_`.

## Embedding

* A node of `elements_list_` is a `Node`: the pair it stores together with
  the identity of the node (`id`).  A `std::list` iterator is the identity of
  the node it designates; `push_back` creates a node whose identity is
  different from that of every node currently in the list (`freshId`).
* `table_` is a list of chains, a chain is a list of node identities.
* `size_t` fields are natural numbers.  `table_size_` is the length of
  `table_`, a vector that is held in memory, and `elements_number_` is the
  length of `elements_list_`, so `table_size_ * kAlpha` and
  `elements_number_ + 1` stay below `2 ^ 64` and do not wrap; failure of
  allocation is outside the embedding.
* `hasher_` is a function `K → Nat`, equality of keys is decidable equality.
* The past-the-end iterator `end()` is `none`.
* Reading a chain outside `table_` and dereferencing an iterator whose node
  is gone are undefined in C++; the embedding reads an empty chain and skips
  such an iterator.  `WF` excludes both in every reachable state.
-/

set_option autoImplicit false
set_option linter.unusedSectionVars false

namespace HashMapModel

/-- One node of `elements_list_`: a `std::pair<const KeyType, ValueType>` and
the identity of the list node that holds it. -/
structure Node (K V : Type) where
  id : Nat
  key : K
  value : V
deriving DecidableEq

/-- The data members of `HashMap` (the constants `kMinimalSize` and `kAlpha`
are definitions below). -/
structure HashMap (K V : Type) where
  table_ : List (List Nat)
  elements_list_ : List (Node K V)
  hasher_ : K → Nat
  table_size_ : Nat
  elements_number_ : Nat

/-- The member constant `kMinimalSize`. -/
def kMinimalSize : Nat := 8

/-- The member constant `kAlpha`. -/
def kAlpha : Nat := 2

/-- The exception type thrown by `at`. -/
inductive Error where
  | out_of_range
deriving DecidableEq

section Helpers

variable {K V : Type}

/-- The chain `table_[i]`. -/
def chainAt (t : List (List Nat)) (i : Nat) : List Nat :=
  t.getD i []

/-- The statement `table_[i].push_back(h)`. -/
def pushAt (t : List (List Nat)) (i : Nat) (h : Nat) : List (List Nat) :=
  t.set i (chainAt t i ++ [h])

/-- The call `table_.resize(n)` of `std::vector`: the first `n` chains are
kept and empty chains are appended up to length `n`. -/
def vresize (t : List (List Nat)) (n : Nat) : List (List Nat) :=
  t.take n ++ List.replicate (n - t.length) []

/-- The identity of the node that `push_back` creates: one that no node of
the list has. -/
def freshId (l : List (Node K V)) : Nat :=
  l.foldr (fun n acc => max (n.id + 1) acc) 0

/-- Dereferencing an iterator: the node of the list with this identity. -/
def deref (l : List (Node K V)) (h : Nat) : Option (Node K V) :=
  l.find? (fun n => n.id == h)

/-- The call `elements_list_.erase(it)`: the node with this identity leaves
the list, the other nodes keep their order. -/
def listErase (l : List (Node K V)) (h : Nat) : List (Node K V) :=
  l.filter (fun n => n.id != h)

variable [DecidableEq K]

/-- The loop of `find`: the first iterator of the chain whose node has the
key, as the node it designates. -/
def scan (l : List (Node K V)) (key : K) : List Nat → Option (Node K V)
  | [] => none
  | h :: rest =>
    match deref l h with
    | some n => if n.key = key then some n else scan l key rest
    | none => scan l key rest

/-- The loop of `erase`: the first iterator of the chain whose node has the
key, with the chain after `table_[table_index].erase(element)`. -/
def eraseScan (l : List (Node K V)) (key : K) : List Nat → Option (Nat × List Nat)
  | [] => none
  | h :: rest =>
    match deref l h with
    | some n =>
      if n.key = key then some (h, rest)
      else (eraseScan l key rest).map (fun r => (r.1, h :: r.2))
    | none => (eraseScan l key rest).map (fun r => (r.1, h :: r.2))

end Helpers

namespace HashMap

variable {K V : Type}

/-- The constructor `HashMap(const Hash hash_function = Hash())`. -/
def ctor (hash_function : K → Nat) : HashMap K V :=
  { table_ := vresize [] kMinimalSize
    elements_list_ := []
    hasher_ := hash_function
    table_size_ := kMinimalSize
    elements_number_ := 0 }

/-- The member function `hash_function()`. -/
def hash_function (m : HashMap K V) : K → Nat := m.hasher_

/-- The member function `empty()`. -/
def empty (m : HashMap K V) : Bool := m.elements_number_ == 0

/-- The member function `size()`. -/
def size (m : HashMap K V) : Nat := m.elements_number_

/-- Iteration from `begin()` to `end()`: the pairs of `elements_list_`. -/
def entries (m : HashMap K V) : List (K × V) :=
  m.elements_list_.map (fun n => (n.key, n.value))

/-- The keys met by iteration from `begin()` to `end()`. -/
def keys (m : HashMap K V) : List K :=
  m.elements_list_.map (fun n => n.key)

/-- The member function `table_resize()`. -/
def table_resize (m : HashMap K V) : HashMap K V :=
  let ts := m.table_size_ * kAlpha
  { m with
    table_size_ := ts
    table_ := m.elements_list_.foldl
      (fun t n => pushAt t (m.hasher_ n.key % ts) n.id) (vresize [] ts) }

/-- The member function `clear()`. -/
def clear (m : HashMap K V) : HashMap K V :=
  { m with
    table_size_ := kMinimalSize
    elements_number_ := 0
    elements_list_ := []
    table_ := vresize [] kMinimalSize }

/-- Assignment through a reference to the value of the node `h` (the
reference that `operator[]` returns, or `it->second` of an iterator). -/
def assign_value (m : HashMap K V) (h : Nat) (w : V) : HashMap K V :=
  { m with
    elements_list_ := m.elements_list_.map
      (fun n => if n.id = h then { n with value := w } else n) }

variable [DecidableEq K]

/-- The member function `find(key)`; `none` is `end()`. -/
def find (m : HashMap K V) (key : K) : Option (Node K V) :=
  let table_index := m.hasher_ key % m.table_size_
  scan m.elements_list_ key (chainAt m.table_ table_index)

/-- The member function `insert(element)`. -/
def insert (m : HashMap K V) (element : K × V) : HashMap K V :=
  match m.find element.1 with
  | some _ => m
  | none =>
    let table_index := m.hasher_ element.1 % m.table_size_
    let h := freshId m.elements_list_
    let m1 : HashMap K V :=
      { m with
        elements_list_ := m.elements_list_ ++ [{ id := h, key := element.1, value := element.2 }]
        table_ := pushAt m.table_ table_index h
        elements_number_ := m.elements_number_ + 1 }
    if m1.elements_number_ ≥ kAlpha * m1.table_size_ then m1.table_resize else m1

/-- The member function `insert_all_elements(begin, end)` on the sequence the
two iterators delimit. -/
def insert_all_elements (m : HashMap K V) : List (K × V) → HashMap K V
  | [] => m
  | element :: rest => insert_all_elements (m.insert element) rest

/-- The constructor from a range, and the one from an initializer list, which
delegates to it. -/
def ctor_range (xs : List (K × V)) (hash_function : K → Nat) : HashMap K V :=
  (ctor hash_function).insert_all_elements xs

/-- The member function `operator=` for `this != &other` (for `this == &other`
it returns `*this` as it is). -/
def operator_assign (self other : HashMap K V) : HashMap K V :=
  let c := self.clear
  let m1 : HashMap K V :=
    { c with
      hasher_ := other.hasher_
      table_size_ := other.table_size_
      table_ := vresize c.table_ other.table_size_ }
  m1.insert_all_elements other.entries

/-- The copy constructor: `*this = other` on an object whose containers are
default-initialised; `clear()` and the assignment of `hasher_` overwrite the
three members that have no initialiser. -/
def ctor_copy (other : HashMap K V) : HashMap K V :=
  operator_assign
    { table_ := [], elements_list_ := [], hasher_ := other.hasher_,
      table_size_ := 0, elements_number_ := 0 } other

/-- The member function `operator[]`: the map after the call and the node
whose value the returned reference denotes (`find(key)->second`). -/
def subscript [Inhabited V] (m : HashMap K V) (key : K) : HashMap K V × Option (Node K V) :=
  let m1 := m.insert (key, default)
  (m1, m1.find key)

/-- The member function `at(key)`. -/
def at_ (m : HashMap K V) (key : K) : Except Error V :=
  match m.find key with
  | some element => Except.ok element.value
  | none => Except.error Error.out_of_range

/-- The member function `erase(key)`. -/
def erase (m : HashMap K V) (key : K) : HashMap K V :=
  let table_index := m.hasher_ key % m.table_size_
  match eraseScan m.elements_list_ key (chainAt m.table_ table_index) with
  | some (h, chain) =>
    { m with
      elements_list_ := listErase m.elements_list_ h
      table_ := m.table_.set table_index chain
      elements_number_ := m.elements_number_ - 1 }
  | none => m

end HashMap


/-! ## The representation invariant -/

/-- The representation invariant of `HashMap`: the table has `table_size_`
chains, node identities and keys are pairwise distinct, the counter is the
length of the list and below the load limit, every node is filed in the chain
of its key, and every chain holds distinct iterators to nodes of the list
whose keys hash to that chain. -/
structure WF {K V : Type} (m : HashMap K V) : Prop where
  size_pos : 0 < m.table_size_
  table_len : m.table_.length = m.table_size_
  ids_nodup : (m.elements_list_.map Node.id).Nodup
  keys_nodup : (m.elements_list_.map Node.key).Nodup
  count : m.elements_number_ = m.elements_list_.length
  load : m.elements_number_ < kAlpha * m.table_size_
  filed : ∀ n ∈ m.elements_list_, n.id ∈ chainAt m.table_ (m.hasher_ n.key % m.table_size_)
  sound : ∀ i h, h ∈ chainAt m.table_ i →
    ∃ n ∈ m.elements_list_, n.id = h ∧ m.hasher_ n.key % m.table_size_ = i
  chain_nodup : ∀ i, (chainAt m.table_ i).Nodup

/-! ## Reachable states -/

/-- The states a program can bring a `HashMap` into: the four constructors,
then any member function that changes the object, and assignment to a value
through a reference or iterator. -/
inductive Reachable {K V : Type} [DecidableEq K] [Inhabited V] : HashMap K V → Prop where
  | ctor (hash_function : K → Nat) : Reachable (HashMap.ctor hash_function)
  | ctor_range (xs : List (K × V)) (hash_function : K → Nat) :
      Reachable (HashMap.ctor_range xs hash_function)
  | ctor_copy {other : HashMap K V} : Reachable other → Reachable (HashMap.ctor_copy other)
  | operator_assign {self other : HashMap K V} :
      Reachable self → Reachable other → Reachable (HashMap.operator_assign self other)
  | insert {m : HashMap K V} (element : K × V) : Reachable m → Reachable (m.insert element)
  | insert_all_elements {m : HashMap K V} (xs : List (K × V)) :
      Reachable m → Reachable (m.insert_all_elements xs)
  | subscript {m : HashMap K V} (key : K) : Reachable m → Reachable (m.subscript key).1
  | assign_value {m : HashMap K V} (h : Nat) (w : V) :
      Reachable m → Reachable (m.assign_value h w)
  | erase {m : HashMap K V} (key : K) : Reachable m → Reachable (m.erase key)
  | table_resize {m : HashMap K V} : Reachable m → Reachable m.table_resize
  | clear {m : HashMap K V} : Reachable m → Reachable m.clear

/-! ## Sequences of operations -/

section Traces

variable {K V : Type}

/-- One call of a sequence of `insert` and `erase` calls. -/
inductive Op (K V : Type) where
  | insert (key : K) (value : V)
  | erase (key : K)
deriving DecidableEq

/-- The key a call is about. -/
def Op.key : Op K V → K
  | Op.insert key _ => key
  | Op.erase key => key

/-- The key of an `insert` call. -/
def Op.insertedKey : Op K V → Option K
  | Op.insert key _ => some key
  | Op.erase _ => none

/-- The key of an `erase` call. -/
def Op.erasedKey : Op K V → Option K
  | Op.insert _ _ => none
  | Op.erase key => some key

variable [DecidableEq K]

/-- The effect of one call on the map. -/
def step (m : HashMap K V) : Op K V → HashMap K V
  | Op.insert key value => m.insert (key, value)
  | Op.erase key => m.erase key

/-- The map after a sequence of calls on a map constructed empty. -/
def run (hash_function : K → Nat) (ops : List (Op K V)) : HashMap K V :=
  ops.foldl step (HashMap.ctor hash_function)

/-- The distinct keys that the sequence inserts. -/
def insertedKeys (ops : List (Op K V)) : List K :=
  (ops.filterMap Op.insertedKey).dedup

/-- The distinct keys that the sequence erases. -/
def erasedKeys (ops : List (Op K V)) : List K :=
  (ops.filterMap Op.erasedKey).dedup

/-- The most recent call of the sequence that is about `key`. -/
def lastOpOn (ops : List (Op K V)) (key : K) : Option (Op K V) :=
  (ops.filter (fun op => decide (op.key = key))).getLast?

/-- The most recent call about `key` is an `insert`. -/
def live (ops : List (Op K V)) (key : K) : Bool :=
  match lastOpOn ops key with
  | some (Op.insert _ _) => true
  | _ => false

/-- The most recent call about `key` is an `erase`. -/
def erasedLast (ops : List (Op K V)) (key : K) : Bool :=
  match lastOpOn ops key with
  | some (Op.erase _) => true
  | _ => false

/-- The positions of the successful insertions of `key`: the calls
`insert((key, _))` that find the key absent and append an entry. -/
def successfulInsertions (hash_function : K → Nat) (ops : List (Op K V)) (key : K) : List Nat :=
  (List.range ops.length).filter (fun i =>
    match ops[i]? with
    | some (Op.insert key' _) =>
      decide (key' = key) && ((run hash_function (ops.take i)).find key).isNone
    | _ => false)

/-- The position of the first successful insertion of `key`. -/
def firstSuccessfulInsertion (hash_function : K → Nat) (ops : List (Op K V)) (key : K) :
    Option Nat :=
  (successfulInsertions hash_function ops key).head?

/-- The position of the most recent successful insertion of `key`. -/
def lastSuccessfulInsertion (hash_function : K → Nat) (ops : List (Op K V)) (key : K) :
    Option Nat :=
  (successfulInsertions hash_function ops key).getLast?

/-- Both positions exist and the first is before the second. -/
def precedes : Option Nat → Option Nat → Bool
  | some i, some j => decide (i < j)
  | _, _ => false

/-- One call of the public interface. -/
inductive Call (K V : Type) where
  | insert (element : K × V)
  | subscript (key : K)
  | erase (key : K)
  | find (key : K)
  | clear
  | size
  | empty
  | at_ (key : K)

/-- What a call of the public interface returns. -/
inductive Ret (K V : Type) where
  | unit
  | iterator (it : Option (Node K V))
  | reference (it : Option (Node K V))
  | count (n : Nat)
  | flag (b : Bool)
  | value (v : V)

/-- A call of the public interface: the exception it throws, or the map after
the call and the value returned. -/
def exec [Inhabited V] (m : HashMap K V) : Call K V → Except Error (HashMap K V × Ret K V)
  | Call.insert element => Except.ok (m.insert element, Ret.unit)
  | Call.subscript key => Except.ok ((m.subscript key).1, Ret.reference (m.subscript key).2)
  | Call.erase key => Except.ok (m.erase key, Ret.unit)
  | Call.find key => Except.ok (m, Ret.iterator (m.find key))
  | Call.clear => Except.ok (m.clear, Ret.unit)
  | Call.size => Except.ok (m, Ret.count m.size)
  | Call.empty => Except.ok (m, Ret.flag m.empty)
  | Call.at_ key =>
    match m.at_ key with
    | Except.ok v => Except.ok (m, Ret.value v)
    | Except.error e => Except.error e

/-- What `find(key)` yields to a reader: nothing for `end()`, else the pair
`*it` of the entry found. -/
def HashMap.find_pair (m : HashMap K V) (key : K) : Option (K × V) :=
  (m.find key).map (fun n => (n.key, n.value))

/-- The statement `m[key] = w`: `operator[]`, then assignment through the
reference it returns. -/
def HashMap.subscript_assign [Inhabited V] (m : HashMap K V) (key : K) (w : V) : HashMap K V :=
  match (m.subscript key).2 with
  | some n => (m.subscript key).1.assign_value n.id w
  | none => (m.subscript key).1

/-- The pairs of a sequence that `insert` keeps: those whose key is not in
`seen` and has not occurred earlier in the sequence. -/
def firstOccurrences (seen : List K) : List (K × V) → List (K × V)
  | [] => []
  | element :: rest =>
    if element.1 ∈ seen then firstOccurrences seen rest
    else element :: firstOccurrences (seen ++ [element.1]) rest

/-- One statement of a program that uses the map: `insert`, `m[key] = w`,
`erase` or `clear`. -/
inductive Cmd (K V : Type) where
  | insert (key : K) (value : V)
  | assign (key : K) (w : V)
  | erase (key : K)
  | clear
deriving DecidableEq

/-- The effect of one statement on the map. -/
def Cmd.apply [Inhabited V] (m : HashMap K V) : Cmd K V → HashMap K V
  | Cmd.insert key value => m.insert (key, value)
  | Cmd.assign key w => m.subscript_assign key w
  | Cmd.erase key => m.erase key
  | Cmd.clear => m.clear

/-- The map after a sequence of statements on a map constructed empty. -/
def runCmds [Inhabited V] (hash_function : K → Nat) (cmds : List (Cmd K V)) : HashMap K V :=
  cmds.foldl Cmd.apply (HashMap.ctor hash_function)

/-- The reference model, a plain list of pairs: `insert` appends the pair iff
its key is not in the list. -/
def Reference.insert (l : List (K × V)) (element : K × V) : List (K × V) :=
  if element.1 ∈ l.map Prod.fst then l else l ++ [element]

/-- The reference model: `erase` removes the pair with that key. -/
def Reference.erase (l : List (K × V)) (key : K) : List (K × V) :=
  l.filter (fun e => !decide (e.1 = key))

/-- The reference model: `find` is a linear search. -/
def Reference.find (l : List (K × V)) (key : K) : Option (K × V) :=
  l.find? (fun e => decide (e.1 = key))

/-- The reference model: `m[key] = w` inserts the key with the default value
when it is not in the list, then replaces the value paired with it. -/
def Reference.assign [Inhabited V] (l : List (K × V)) (key : K) (w : V) : List (K × V) :=
  (Reference.insert l (key, default)).map (fun e => if e.1 = key then (e.1, w) else e)

/-- The reference model: the effect of one statement. -/
def Reference.apply [Inhabited V] (l : List (K × V)) : Cmd K V → List (K × V)
  | Cmd.insert key value => Reference.insert l (key, value)
  | Cmd.assign key w => Reference.assign l key w
  | Cmd.erase key => Reference.erase l key
  | Cmd.clear => []

/-- The reference model: the list after a sequence of statements on the empty
list. -/
def Reference.run [Inhabited V] (cmds : List (Cmd K V)) : List (K × V) :=
  cmds.foldl Reference.apply []

/-- The reference model: `at` is `find`, failing when nothing is found. -/
def Reference.at_ (l : List (K × V)) (key : K) : Except Error V :=
  match Reference.find l key with
  | some e => Except.ok e.2
  | none => Except.error Error.out_of_range

/-- A map with the three keys 1, 2, 3, built by the range constructor. -/
def sample3 : HashMap Nat Nat :=
  HashMap.ctor_range [(1, 10), (2, 20), (3, 30)] id

/-- A map of fifteen entries, one below the load limit of the initial table. -/
def sample15 : HashMap Nat Nat :=
  HashMap.ctor_range ((List.range 15).map (fun i => (i, 10 * i))) id

/-- A map whose node identities differ from those of its copy: keys 3, 1, 2
inserted in this order after key 7, which is then erased. -/
def sample312 : HashMap Nat Nat :=
  (HashMap.ctor_range [(7, 70), (3, 30), (1, 10), (2, 20)] id).erase 7

/-- Sixteen pairs with pairwise distinct keys. -/
def sixteen : List (Nat × Nat) :=
  (List.range 16).map (fun i => (3 * i, i))

/-- A sequence that inserts key 1 again after erasing it. -/
def reinsertOps : List (Op Nat Nat) :=
  [Op.insert 1 10, Op.insert 2 20, Op.erase 1, Op.insert 1 30]

end Traces

/-! ## Lists of nodes, chains and the table -/

section ListLemmas

variable {K V : Type}

theorem lt_freshId {l : List (Node K V)} {n : Node K V} (hn : n ∈ l) : n.id < freshId l := by
  induction l with
  | nil => cases hn
  | cons a t ih =>
    simp only [freshId, List.foldr_cons]
    rcases List.mem_cons.1 hn with rfl | h
    · omega
    · have := ih h
      simp only [freshId] at this
      omega

theorem freshId_not_mem {l : List (Node K V)} : freshId l ∉ l.map Node.id := by
  intro h
  obtain ⟨n, hn, he⟩ := List.mem_map.1 h
  have := lt_freshId hn
  omega

theorem deref_some {l : List (Node K V)} {h : Nat} {n : Node K V}
    (hd : deref l h = some n) : n ∈ l ∧ n.id = h := by
  unfold deref at hd
  refine ⟨List.mem_of_find?_eq_some hd, ?_⟩
  have := List.find?_some hd
  simpa using this

theorem deref_of_mem {l : List (Node K V)} (hid : (l.map Node.id).Nodup) {n : Node K V}
    (hn : n ∈ l) : deref l n.id = some n := by
  cases hd : deref l n.id with
  | none =>
    unfold deref at hd
    have := List.find?_eq_none.1 hd n hn
    simp at this
  | some n' =>
    obtain ⟨hm, he⟩ := deref_some hd
    exact congrArg some (List.inj_on_of_nodup_map hid hm hn he)

theorem deref_none_iff {l : List (Node K V)} {h : Nat} :
    deref l h = none ↔ h ∉ l.map Node.id := by
  unfold deref
  simp [List.find?_eq_none]

theorem chainAt_of_length_le {t : List (List Nat)} {i : Nat} (h : t.length ≤ i) :
    chainAt t i = [] := by
  simp [chainAt, List.getD_eq_getElem?_getD, List.getElem?_eq_none h]

theorem length_pushAt (t : List (List Nat)) (i h : Nat) : (pushAt t i h).length = t.length := by
  simp [pushAt]

theorem chainAt_set (t : List (List Nat)) (i j : Nat) (c : List Nat) :
    chainAt (t.set i c) j = if i = j ∧ i < t.length then c else chainAt t j := by
  simp only [chainAt, List.getD_eq_getElem?_getD, List.getElem?_set]
  by_cases hij : i = j
  · subst hij
    by_cases hl : i < t.length
    · simp [hl]
    · simp [hl, List.getElem?_eq_none (Nat.le_of_not_lt hl)]
  · simp [hij]

theorem chainAt_pushAt (t : List (List Nat)) (i j h : Nat) :
    chainAt (pushAt t i h) j = if i = j ∧ i < t.length then chainAt t i ++ [h] else chainAt t j := by
  simp [pushAt, chainAt_set]

theorem length_vresize (t : List (List Nat)) (n : Nat) : (vresize t n).length = n := by
  simp [vresize]
  omega

theorem chainAt_vresize_nil (n i : Nat) : chainAt (vresize [] n) i = [] := by
  simp only [vresize, chainAt, List.getD_eq_getElem?_getD, List.getElem?_replicate,
    List.take_nil, List.nil_append, List.length_nil, Nat.sub_zero]
  split <;> rfl


variable [DecidableEq K]

theorem scan_some {l : List (Node K V)} {key : K} {c : List Nat} {n : Node K V}
    (hs : scan l key c = some n) : n ∈ l ∧ n.key = key ∧ n.id ∈ c := by
  induction c with
  | nil => simp [scan] at hs
  | cons h rest ih =>
    simp only [scan] at hs
    cases hd : deref l h with
    | none =>
      rw [hd] at hs
      obtain ⟨h1, h2, h3⟩ := ih hs
      exact ⟨h1, h2, List.mem_cons_of_mem _ h3⟩
    | some n' =>
      rw [hd] at hs
      obtain ⟨hm, he⟩ := deref_some hd
      by_cases hk : n'.key = key
      · simp only [hk, if_true, Option.some.injEq] at hs
        subst hs
        exact ⟨hm, hk, by simp [he]⟩
      · simp only [hk, if_false] at hs
        obtain ⟨h1, h2, h3⟩ := ih hs
        exact ⟨h1, h2, List.mem_cons_of_mem _ h3⟩

theorem scan_ne_none {l : List (Node K V)} {key : K} {c : List Nat} {n : Node K V}
    (hid : (l.map Node.id).Nodup) (hn : n ∈ l) (hk : n.key = key) (hc : n.id ∈ c) :
    scan l key c ≠ none := by
  induction c with
  | nil => cases hc
  | cons h rest ih =>
    simp only [scan]
    rcases List.mem_cons.1 hc with he | hr
    · rw [← he, deref_of_mem hid hn]
      simp [hk]
    · cases hd : deref l h with
      | none => exact ih hr
      | some n' =>
        by_cases hk' : n'.key = key
        · simp [hk']
        · simpa [hk'] using ih hr

theorem eraseScan_eq_none {l : List (Node K V)} {key : K} {c : List Nat}
    (hs : scan l key c = none) : eraseScan l key c = none := by
  induction c with
  | nil => rfl
  | cons h rest ih =>
    simp only [scan] at hs
    simp only [eraseScan]
    cases hd : deref l h with
    | none =>
      rw [hd] at hs
      simp [ih hs]
    | some n' =>
      rw [hd] at hs
      by_cases hk : n'.key = key
      · simp [hk] at hs
      · simp only [hk, if_false] at hs
        simp [hk, ih hs]

theorem eraseScan_eq_some {l : List (Node K V)} {key : K} {c : List Nat} {n : Node K V}
    (hs : scan l key c = some n) :
    ∃ pre post, c = pre ++ n.id :: post ∧ eraseScan l key c = some (n.id, pre ++ post) := by
  induction c with
  | nil => simp [scan] at hs
  | cons h rest ih =>
    simp only [scan] at hs
    simp only [eraseScan]
    cases hd : deref l h with
    | none =>
      rw [hd] at hs
      obtain ⟨pre, post, h1, h2⟩ := ih hs
      exact ⟨h :: pre, post, by simp [h1], by simp [h2]⟩
    | some n' =>
      rw [hd] at hs
      obtain ⟨_, he⟩ := deref_some hd
      by_cases hk : n'.key = key
      · simp only [hk, if_true, Option.some.injEq] at hs
        subst hs
        exact ⟨[], rest, by simp [he], by simp [hk, he]⟩
      · simp only [hk, if_false] at hs
        obtain ⟨pre, post, h1, h2⟩ := ih hs
        exact ⟨h :: pre, post, by simp [h1], by simp [hk, h2]⟩

end ListLemmas

namespace HashMap

variable {K V : Type} [DecidableEq K]

/-- Under the invariant `find` is the linear search of the entry list. -/
theorem find_eq_find? {m : HashMap K V} (hw : WF m) (key : K) :
    m.find key = m.elements_list_.find? (fun n => decide (n.key = key)) := by
  cases hf : m.elements_list_.find? (fun n => decide (n.key = key)) with
  | none =>
    cases hs : m.find key with
    | none => rfl
    | some n =>
      obtain ⟨hm, hk, _⟩ := scan_some hs
      have := List.find?_eq_none.1 hf n hm
      simp [hk] at this
  | some n =>
    have hm := List.mem_of_find?_eq_some hf
    have hk : n.key = key := by simpa using List.find?_some hf
    cases hs : m.find key with
    | none =>
      have hne : scan m.elements_list_ key (chainAt m.table_ (m.hasher_ key % m.table_size_)) ≠ none :=
        scan_ne_none hw.ids_nodup hm hk (hk ▸ hw.filed n hm)
      exact absurd hs hne
    | some n' =>
      obtain ⟨hm', hk', _⟩ := scan_some hs
      exact congrArg some (List.inj_on_of_nodup_map hw.keys_nodup hm' hm (hk'.trans hk.symm))

theorem find_eq_none_iff {m : HashMap K V} (hw : WF m) (key : K) :
    m.find key = none ↔ key ∉ m.keys := by
  rw [find_eq_find? hw, List.find?_eq_none]
  simp [keys]

theorem find_eq_some_iff {m : HashMap K V} (hw : WF m) (key : K) (n : Node K V) :
    m.find key = some n ↔ n ∈ m.elements_list_ ∧ n.key = key := by
  constructor
  · intro h
    obtain ⟨h1, h2, _⟩ := scan_some h
    exact ⟨h1, h2⟩
  · rintro ⟨h1, h2⟩
    cases hs : m.find key with
    | none =>
      exact absurd hs (scan_ne_none hw.ids_nodup h1 h2 (h2 ▸ hw.filed n h1))
    | some n' =>
      obtain ⟨hm', hk', _⟩ := scan_some hs
      exact congrArg some (List.inj_on_of_nodup_map hw.keys_nodup hm' h1 (hk'.trans h2.symm))


/-! ### The invariant is established by the constructors and kept by every member function -/

theorem wf_ctor (hash_function : K → Nat) : WF (ctor hash_function : HashMap K V) where
  size_pos := by simp [ctor, kMinimalSize]
  table_len := by simp [ctor, length_vresize]
  ids_nodup := by simp [ctor]
  keys_nodup := by simp [ctor]
  count := by simp [ctor]
  load := by simp [ctor, kMinimalSize, kAlpha]
  filed := by simp [ctor]
  sound := by simp [ctor, chainAt_vresize_nil]
  chain_nodup := by simp [ctor, chainAt_vresize_nil]

theorem wf_clear (m : HashMap K V) : WF m.clear where
  size_pos := by simp [clear, kMinimalSize]
  table_len := by simp [clear, length_vresize]
  ids_nodup := by simp [clear]
  keys_nodup := by simp [clear]
  count := by simp [clear]
  load := by simp [clear, kMinimalSize, kAlpha]
  filed := by simp [clear]
  sound := by simp [clear, chainAt_vresize_nil]
  chain_nodup := by simp [clear, chainAt_vresize_nil]

theorem length_rebuild (hash : K → Nat) (ts : Nat) (l : List (Node K V)) (t : List (List Nat)) :
    (l.foldl (fun t n => pushAt t (hash n.key % ts) n.id) t).length = t.length := by
  induction l generalizing t with
  | nil => rfl
  | cons a r ih => simp [List.foldl_cons, ih, length_pushAt]

theorem chainAt_rebuild (hash : K → Nat) (ts : Nat) (l : List (Node K V)) (t : List (List Nat))
    (hlen : t.length = ts) (i : Nat) (hi : i < ts) :
    chainAt (l.foldl (fun t n => pushAt t (hash n.key % ts) n.id) t) i
      = chainAt t i ++ (l.filter (fun n => decide (hash n.key % ts = i))).map Node.id := by
  induction l generalizing t with
  | nil => simp
  | cons a r ih =>
    rw [List.foldl_cons, ih _ (by simp [length_pushAt, hlen]), chainAt_pushAt]
    have hlt : hash a.key % ts < t.length := by
      rw [hlen]; exact Nat.mod_lt _ (by omega)
    by_cases he : hash a.key % ts = i
    · subst he
      simp [hlt, List.filter_cons]
    · simp [he, List.filter_cons]

/-- The rebuild of `table_resize` gives a well-formed map whenever the entry
list is well formed and fits under the doubled load limit. -/
theorem wf_table_resize_of {m : HashMap K V} (hpos : 0 < m.table_size_)
    (hids : (m.elements_list_.map Node.id).Nodup)
    (hkeys : (m.elements_list_.map Node.key).Nodup)
    (hcount : m.elements_number_ = m.elements_list_.length)
    (hload : m.elements_number_ < kAlpha * (m.table_size_ * kAlpha)) :
    WF m.table_resize := by
  have hts : 0 < m.table_size_ * kAlpha := by simp [kAlpha]; omega
  have hchain : ∀ i, i < m.table_size_ * kAlpha →
      chainAt m.table_resize.table_ i
        = (m.elements_list_.filter
            (fun n => decide (m.hasher_ n.key % (m.table_size_ * kAlpha) = i))).map Node.id := by
    intro i hi
    simp only [table_resize]
    rw [chainAt_rebuild _ _ _ _ (length_vresize _ _) i hi, chainAt_vresize_nil]
    simp
  have hlen : m.table_resize.table_.length = m.table_size_ * kAlpha := by
    simp [table_resize, length_rebuild, length_vresize]
  refine ⟨hts, hlen, hids, hkeys, hcount, hload, ?_, ?_, ?_⟩
  · intro n hn
    have hi : m.hasher_ n.key % (m.table_size_ * kAlpha) < m.table_size_ * kAlpha :=
      Nat.mod_lt _ hts
    show n.id ∈ chainAt m.table_resize.table_ (m.hasher_ n.key % (m.table_size_ * kAlpha))
    rw [hchain _ hi]
    exact List.mem_map.2 ⟨n, List.mem_filter.2 ⟨hn, by simp⟩, rfl⟩
  · intro i h hh
    by_cases hi : i < m.table_size_ * kAlpha
    · rw [hchain i hi] at hh
      obtain ⟨n, hn, he⟩ := List.mem_map.1 hh
      obtain ⟨hn1, hn2⟩ := List.mem_filter.1 hn
      exact ⟨n, hn1, he, by simpa using hn2⟩
    · rw [chainAt_of_length_le (by omega)] at hh
      cases hh
  · intro i
    by_cases hi : i < m.table_size_ * kAlpha
    · rw [hchain i hi]
      exact (hids.sublist ((List.filter_sublist _).map _))
    · rw [chainAt_of_length_le (by omega)]
      exact List.nodup_nil

theorem wf_table_resize {m : HashMap K V} (hw : WF m) : WF m.table_resize := by
  refine wf_table_resize_of hw.size_pos hw.ids_nodup hw.keys_nodup hw.count ?_
  have := hw.load
  simp only [kAlpha] at this ⊢
  omega


theorem insert_of_find_some {m : HashMap K V} (element : K × V) {n : Node K V}
    (hf : m.find element.1 = some n) : m.insert element = m := by
  simp [insert, hf]

theorem insert_of_find_none {m : HashMap K V} (element : K × V)
    (hf : m.find element.1 = none) :
    m.insert element =
      if kAlpha * m.table_size_ ≤ m.elements_number_ + 1 then
        HashMap.table_resize
          { m with
            elements_list_ := m.elements_list_ ++
              [{ id := freshId m.elements_list_, key := element.1, value := element.2 }]
            table_ := pushAt m.table_ (m.hasher_ element.1 % m.table_size_)
              (freshId m.elements_list_)
            elements_number_ := m.elements_number_ + 1 }
      else
        { m with
          elements_list_ := m.elements_list_ ++
            [{ id := freshId m.elements_list_, key := element.1, value := element.2 }]
          table_ := pushAt m.table_ (m.hasher_ element.1 % m.table_size_)
            (freshId m.elements_list_)
          elements_number_ := m.elements_number_ + 1 } := by
  simp [insert, hf]

/-- The entry list after `insert` of an absent key, resize or not. -/
theorem elements_list_insert_of_find_none {m : HashMap K V} (element : K × V)
    (hf : m.find element.1 = none) :
    (m.insert element).elements_list_ = m.elements_list_ ++
      [{ id := freshId m.elements_list_, key := element.1, value := element.2 }] := by
  rw [insert_of_find_none element hf]
  split <;> rfl

theorem elements_number_insert_of_find_none {m : HashMap K V} (element : K × V)
    (hf : m.find element.1 = none) :
    (m.insert element).elements_number_ = m.elements_number_ + 1 := by
  rw [insert_of_find_none element hf]
  split <;> rfl

theorem wf_insert {m : HashMap K V} (hw : WF m) (element : K × V) : WF (m.insert element) := by
  cases hf : m.find element.1 with
  | some n => rw [insert_of_find_some element hf]; exact hw
  | none =>
    have hk : element.1 ∉ m.elements_list_.map Node.key := by
      have := (find_eq_none_iff hw element.1).1 hf
      simpa [keys] using this
    have hids : ((m.elements_list_ ++
        [Node.mk (freshId m.elements_list_) element.1 element.2]).map
          Node.id).Nodup := by
      rw [List.map_append, List.nodup_append]
      refine ⟨hw.ids_nodup, by simp, ?_⟩
      intro a ha hb
      simp only [List.map_cons, List.map_nil, List.mem_singleton] at hb
      exact freshId_not_mem (hb ▸ ha)
    have hkeys : ((m.elements_list_ ++
        [Node.mk (freshId m.elements_list_) element.1 element.2]).map
          Node.key).Nodup := by
      rw [List.map_append, List.nodup_append]
      refine ⟨hw.keys_nodup, by simp, ?_⟩
      intro a ha hb
      simp only [List.map_cons, List.map_nil, List.mem_singleton] at hb
      exact hk (hb ▸ ha)
    have hidx : m.hasher_ element.1 % m.table_size_ < m.table_.length := by
      rw [hw.table_len]; exact Nat.mod_lt _ hw.size_pos
    have hload := hw.load
    have hcount := hw.count
    rw [insert_of_find_none element hf]
    split
    · refine wf_table_resize_of hw.size_pos hids hkeys ?_ ?_
      · simp [hcount]
      · simp only [kAlpha] at hload ⊢
        omega
    · rename_i hlt
      refine ⟨hw.size_pos, ?_, hids, hkeys, ?_, ?_, ?_, ?_, ?_⟩
      · simp [length_pushAt, hw.table_len]
      · simp [hcount]
      · show m.elements_number_ + 1 < kAlpha * m.table_size_
        omega
      · intro n hn
        show n.id ∈ chainAt (pushAt m.table_ _ _) (m.hasher_ n.key % m.table_size_)
        rw [chainAt_pushAt]
        rcases List.mem_append.1 hn with h1 | h1
        · have := hw.filed n h1
          split
          · rename_i hc
            rw [hc.1]
            exact List.mem_append_left _ this
          · exact this
        · simp only [List.mem_singleton] at h1
          subst h1
          simp [hidx]
      · intro i h hh
        show ∃ n ∈ m.elements_list_ ++ _, n.id = h ∧ m.hasher_ n.key % m.table_size_ = i
        change h ∈ chainAt (pushAt m.table_ _ _) i at hh
        rw [chainAt_pushAt] at hh
        split at hh
        · rename_i hc
          rcases List.mem_append.1 hh with h1 | h1
          · obtain ⟨n, hn, he, hi⟩ := hw.sound _ _ h1
            exact ⟨n, List.mem_append_left _ hn, he, hi.trans hc.1⟩
          · simp only [List.mem_singleton] at h1
            exact ⟨_, List.mem_append_right _ (List.mem_singleton_self _), h1.symm, hc.1⟩
        · obtain ⟨n, hn, he, hi⟩ := hw.sound _ _ hh
          exact ⟨n, List.mem_append_left _ hn, he, hi⟩
      · intro i
        show (chainAt (pushAt m.table_ _ _) i).Nodup
        rw [chainAt_pushAt]
        split
        · rw [List.nodup_append]
          refine ⟨hw.chain_nodup _, by simp, ?_⟩
          intro a ha hb
          simp only [List.mem_singleton] at hb
          obtain ⟨n, hn, he, _⟩ := hw.sound _ _ ha
          have := lt_freshId hn
          omega
        · exact hw.chain_nodup _

theorem wf_insert_all_elements {m : HashMap K V} (hw : WF m) (xs : List (K × V)) :
    WF (m.insert_all_elements xs) := by
  induction xs generalizing m with
  | nil => exact hw
  | cons a r ih => exact ih (wf_insert hw a)


theorem listErase_split {a b : List (Node K V)} {n : Node K V}
    (hid : ((a ++ n :: b).map Node.id).Nodup) : listErase (a ++ n :: b) n.id = a ++ b := by
  have hinj := List.inj_on_of_nodup_map hid
  have hnd : (a ++ n :: b).Nodup := List.Nodup.of_map _ hid
  have hna : ∀ x ∈ a, x.id ≠ n.id := by
    intro x hx he
    have hxn : x = n := hinj (by simp [hx]) (by simp) he
    subst hxn
    rw [List.nodup_append] at hnd
    exact hnd.2.2 hx (List.mem_cons_self _ _)
  have hnb : ∀ x ∈ b, x.id ≠ n.id := by
    intro x hx he
    have hxn : x = n := hinj (by simp [hx]) (by simp) he
    subst hxn
    rw [List.nodup_append, List.nodup_cons] at hnd
    exact hnd.2.1.1 hx
  simp only [listErase, List.filter_append, List.filter_cons, bne_self_eq_false,
    Bool.false_eq_true, if_false]
  rw [List.filter_eq_self.2 (fun x hx => by simpa using hna x hx),
    List.filter_eq_self.2 (fun x hx => by simpa using hnb x hx)]

theorem mem_listErase {l : List (Node K V)} {h : Nat} {n : Node K V} :
    n ∈ listErase l h ↔ n ∈ l ∧ n.id ≠ h := by
  simp [listErase, List.mem_filter]

theorem erase_of_find_none {m : HashMap K V} {key : K} (hf : m.find key = none) :
    m.erase key = m := by
  simp only [erase]
  rw [eraseScan_eq_none hf]

theorem erase_of_find_some {m : HashMap K V} {key : K} {n : Node K V}
    (hf : m.find key = some n) :
    ∃ pre post, chainAt m.table_ (m.hasher_ key % m.table_size_) = pre ++ n.id :: post ∧
      m.erase key =
        { m with
          elements_list_ := listErase m.elements_list_ n.id
          table_ := m.table_.set (m.hasher_ key % m.table_size_) (pre ++ post)
          elements_number_ := m.elements_number_ - 1 } := by
  obtain ⟨pre, post, h1, h2⟩ := eraseScan_eq_some hf
  refine ⟨pre, post, h1, ?_⟩
  simp only [erase]
  rw [h2]

theorem wf_erase {m : HashMap K V} (hw : WF m) (key : K) : WF (m.erase key) := by
  cases hf : m.find key with
  | none => rw [erase_of_find_none hf]; exact hw
  | some n =>
    obtain ⟨pre, post, hc, he⟩ := erase_of_find_some hf
    obtain ⟨hn, hk, _⟩ := scan_some hf
    obtain ⟨a, b, hab⟩ := List.append_of_mem hn
    have hsplit : listErase m.elements_list_ n.id = a ++ b := by
      have := hw.ids_nodup
      rw [hab] at this ⊢
      exact listErase_split this
    have hsub : (listErase m.elements_list_ n.id).Sublist m.elements_list_ :=
      List.filter_sublist _
    have hidx : m.hasher_ key % m.table_size_ < m.table_.length := by
      rw [hw.table_len]; exact Nat.mod_lt _ hw.size_pos
    have hcn := hw.chain_nodup (m.hasher_ key % m.table_size_)
    rw [hc] at hcn
    have hnotin : n.id ∉ pre ++ post := by
      rw [List.nodup_append, List.nodup_cons] at hcn
      intro hmem
      rcases List.mem_append.1 hmem with h1 | h1
      · exact hcn.2.2 h1 (List.mem_cons_self _ _)
      · exact hcn.2.1.1 h1
    have hlen : m.elements_list_.length = (a ++ b).length + 1 := by
      rw [hab]; simp; omega
    have hload := hw.load
    have hcount := hw.count
    rw [he]
    refine ⟨hw.size_pos, ?_, ?_, ?_, ?_, ?_, ?_, ?_, ?_⟩
    · simp [hw.table_len]
    · exact hw.ids_nodup.sublist (hsub.map _)
    · exact hw.keys_nodup.sublist (hsub.map _)
    · show m.elements_number_ - 1 = (listErase m.elements_list_ n.id).length
      rw [hsplit]; omega
    · show m.elements_number_ - 1 < kAlpha * m.table_size_
      omega
    · intro x hx
      show x.id ∈ chainAt (m.table_.set _ _) (m.hasher_ x.key % m.table_size_)
      obtain ⟨hx1, hx2⟩ := mem_listErase.1 hx
      have hfx := hw.filed x hx1
      rw [chainAt_set]
      split
      · rename_i hcond
        rw [← hcond.1, hc] at hfx
        rcases List.mem_append.1 hfx with h1 | h1
        · exact List.mem_append_left _ h1
        · rcases List.mem_cons.1 h1 with h2 | h2
          · exact absurd h2 hx2
          · exact List.mem_append_right _ h2
      · exact hfx
    · intro i h hh
      show ∃ x ∈ listErase m.elements_list_ n.id, x.id = h ∧ m.hasher_ x.key % m.table_size_ = i
      change h ∈ chainAt (m.table_.set _ _) i at hh
      rw [chainAt_set] at hh
      split at hh
      · rename_i hcond
        have hin : h ∈ chainAt m.table_ (m.hasher_ key % m.table_size_) := by
          rw [hc]
          rcases List.mem_append.1 hh with h1 | h1
          · exact List.mem_append_left _ h1
          · exact List.mem_append_right _ (List.mem_cons_of_mem _ h1)
        obtain ⟨x, hx, hxe, hxi⟩ := hw.sound _ _ hin
        refine ⟨x, mem_listErase.2 ⟨hx, ?_⟩, hxe, hxi.trans hcond.1⟩
        intro hxn
        exact hnotin (hxn ▸ hxe ▸ hh)
      · rename_i hcond
        obtain ⟨x, hx, hxe, hxi⟩ := hw.sound _ _ hh
        refine ⟨x, mem_listErase.2 ⟨hx, ?_⟩, hxe, hxi⟩
        intro hxn
        have hxeq : x = n := List.inj_on_of_nodup_map hw.ids_nodup hx hn hxn
        subst hxeq
        exact hcond ⟨by rw [← hxi, hk], hidx⟩
    · intro i
      show (chainAt (m.table_.set _ _) i).Nodup
      rw [chainAt_set]
      split
      · refine hcn.sublist ?_
        exact List.Sublist.append (List.Sublist.refl _) (List.sublist_cons_self _ _)
      · exact hw.chain_nodup _


theorem chainAt_eq_nil_of_forall {t : List (List Nat)} (h : ∀ c ∈ t, c = []) (i : Nat) :
    chainAt t i = [] := by
  by_cases hi : i < t.length
  · have : chainAt t i = t[i] := by
      simp [chainAt, List.getD_eq_getElem?_getD, List.getElem?_eq_getElem hi]
    rw [this]
    exact h _ (List.getElem_mem hi)
  · exact chainAt_of_length_le (Nat.le_of_not_lt hi)

theorem vresize_all_nil {t : List (List Nat)} (h : ∀ c ∈ t, c = []) (n : Nat) :
    ∀ c ∈ vresize t n, c = [] := by
  intro c hc
  rcases List.mem_append.1 hc with h1 | h1
  · exact h c (List.mem_of_mem_take h1)
  · exact (List.mem_replicate.1 h1).2

theorem wf_operator_assign (self : HashMap K V) {other : HashMap K V} (ho : WF other) :
    WF (operator_assign self other) := by
  have hnil : ∀ i, chainAt (vresize self.clear.table_ other.table_size_) i = [] := by
    intro i
    refine chainAt_eq_nil_of_forall (vresize_all_nil ?_ _) i
    exact vresize_all_nil (by simp) _
  refine wf_insert_all_elements ?_ _
  refine ⟨ho.size_pos, length_vresize _ _, ?_, ?_, rfl, ?_, ?_, ?_, ?_⟩
  · simp [clear]
  · simp [clear]
  · have := ho.size_pos
    show 0 < kAlpha * other.table_size_
    simp only [kAlpha]
    omega
  · intro n hn
    simp [clear] at hn
  · intro i h hh
    change h ∈ chainAt (vresize self.clear.table_ other.table_size_) i at hh
    rw [hnil] at hh
    cases hh
  · intro i
    show (chainAt (vresize self.clear.table_ other.table_size_) i).Nodup
    rw [hnil]
    exact List.nodup_nil

theorem wf_ctor_copy {other : HashMap K V} (ho : WF other) : WF (ctor_copy other) :=
  wf_operator_assign _ ho

theorem wf_assign_value {m : HashMap K V} (hw : WF m) (h : Nat) (w : V) :
    WF (m.assign_value h w) := by
  have hid : (m.assign_value h w).elements_list_.map Node.id = m.elements_list_.map Node.id := by
    simp only [assign_value, List.map_map]
    refine List.map_congr_left ?_
    intro n _
    simp only [Function.comp]
    split <;> rfl
  have hkey : (m.assign_value h w).elements_list_.map Node.key
      = m.elements_list_.map Node.key := by
    simp only [assign_value, List.map_map]
    refine List.map_congr_left ?_
    intro n _
    simp only [Function.comp]
    split <;> rfl
  refine ⟨hw.size_pos, hw.table_len, hid ▸ hw.ids_nodup, hkey ▸ hw.keys_nodup, ?_, hw.load,
    ?_, ?_, hw.chain_nodup⟩
  · show m.elements_number_ = (m.assign_value h w).elements_list_.length
    simp [assign_value, hw.count]
  · intro n hn
    simp only [assign_value, List.mem_map] at hn
    obtain ⟨n0, hn0, rfl⟩ := hn
    have := hw.filed n0 hn0
    show (if n0.id = h then { n0 with value := w } else n0).id ∈
      chainAt m.table_ (m.hasher_ (if n0.id = h then { n0 with value := w } else n0).key
        % m.table_size_)
    split <;> exact this
  · intro i h' hh
    obtain ⟨n0, hn0, he, hi⟩ := hw.sound i h' hh
    refine ⟨if n0.id = h then { n0 with value := w } else n0, ?_, ?_, ?_⟩
    · simp only [assign_value, List.mem_map]
      exact ⟨n0, hn0, rfl⟩
    · split <;> exact he
    · show m.hasher_ (if n0.id = h then { n0 with value := w } else n0).key % m.table_size_ = i
      split <;> exact hi

end HashMap

/-! ## Reachable states are well formed -/

/-- Every reachable state satisfies the representation invariant. -/
theorem Reachable.wf {K V : Type} [DecidableEq K] [Inhabited V] {m : HashMap K V}
    (hr : Reachable m) : WF m := by
  induction hr with
  | ctor hash_function => exact HashMap.wf_ctor _
  | ctor_range xs hash_function => exact HashMap.wf_insert_all_elements (HashMap.wf_ctor _) _
  | ctor_copy _ ih => exact HashMap.wf_ctor_copy ih
  | operator_assign _ _ _ ih => exact HashMap.wf_operator_assign _ ih
  | insert element _ ih => exact HashMap.wf_insert ih _
  | insert_all_elements xs _ ih => exact HashMap.wf_insert_all_elements ih _
  | subscript key _ ih => exact HashMap.wf_insert ih _
  | assign_value h w _ ih => exact HashMap.wf_assign_value ih _ _
  | erase key _ ih => exact HashMap.wf_erase ih _
  | table_resize _ ih => exact HashMap.wf_table_resize ih
  | clear _ _ => exact HashMap.wf_clear _

/-! ## The entry sequence under `insert` and `erase` -/

namespace HashMap

variable {K V : Type} [DecidableEq K]

theorem mem_keys_of_find {m : HashMap K V} {key : K} {n : Node K V}
    (hf : m.find key = some n) : key ∈ m.keys := by
  obtain ⟨hm, hk, _⟩ := scan_some hf
  exact List.mem_map.2 ⟨n, hm, hk⟩

theorem entries_insert_of_find_none {m : HashMap K V} (element : K × V)
    (hf : m.find element.1 = none) :
    (m.insert element).entries = m.entries ++ [element] := by
  simp [entries, elements_list_insert_of_find_none element hf]

theorem keys_insert_of_find_none {m : HashMap K V} (element : K × V)
    (hf : m.find element.1 = none) :
    (m.insert element).keys = m.keys ++ [element.1] := by
  simp [keys, elements_list_insert_of_find_none element hf]

/-- With distinct identities and distinct keys, removing the node `n` by its
identity is removing the entry with the key of `n`. -/
theorem listErase_eq_filter_key {l : List (Node K V)} (hid : (l.map Node.id).Nodup)
    (hk : (l.map Node.key).Nodup) {n : Node K V} (hn : n ∈ l) :
    listErase l n.id = l.filter (fun x => !decide (x.key = n.key)) := by
  refine List.filter_congr ?_
  intro x hx
  by_cases he : x.id = n.id
  · have : x = n := List.inj_on_of_nodup_map hid hx hn he
    subst this
    simp
  · have hne : x.key ≠ n.key := fun hkk => he (by
      rw [List.inj_on_of_nodup_map hk hx hn hkk])
    simp [he, hne]

theorem elements_list_erase_of_find_some {m : HashMap K V} (hw : WF m) {key : K}
    {n : Node K V} (hf : m.find key = some n) :
    (m.erase key).elements_list_ = m.elements_list_.filter (fun x => !decide (x.key = key)) := by
  obtain ⟨pre, post, _, he⟩ := erase_of_find_some hf
  obtain ⟨hn, hk, _⟩ := scan_some hf
  rw [he]
  show listErase m.elements_list_ n.id = _
  rw [listErase_eq_filter_key hw.ids_nodup hw.keys_nodup hn, hk]

theorem elements_list_erase {m : HashMap K V} (hw : WF m) (key : K) :
    (m.erase key).elements_list_ = m.elements_list_.filter (fun x => !decide (x.key = key)) := by
  cases hf : m.find key with
  | some n => exact elements_list_erase_of_find_some hw hf
  | none =>
    rw [erase_of_find_none hf]
    symm
    refine List.filter_eq_self.2 ?_
    intro x hx
    have hnk := (find_eq_none_iff hw key).1 hf
    have : x.key ≠ key := fun h => hnk (List.mem_map.2 ⟨x, hx, h⟩)
    simp [this]

theorem keys_erase {m : HashMap K V} (hw : WF m) (key : K) :
    (m.erase key).keys = m.keys.filter (fun x => !decide (x = key)) := by
  simp only [keys, elements_list_erase hw, List.filter_map]
  rfl

theorem keys_insert {m : HashMap K V} (hw : WF m) (element : K × V) :
    (m.insert element).keys = if element.1 ∈ m.keys then m.keys else m.keys ++ [element.1] := by
  cases hf : m.find element.1 with
  | some n => rw [insert_of_find_some element hf, if_pos (mem_keys_of_find hf)]
  | none => rw [keys_insert_of_find_none element hf, if_neg ((find_eq_none_iff hw _).1 hf)]

theorem keys_nodup {m : HashMap K V} (hw : WF m) : m.keys.Nodup := hw.keys_nodup

/-- The value that `find` yields is the one paired with the key in the entry
sequence. -/
theorem find_value_of_mem_entries {m : HashMap K V} (hw : WF m) {key : K} {v : V}
    (h : (key, v) ∈ m.entries) : ∃ n, m.find key = some n ∧ n.key = key ∧ n.value = v := by
  obtain ⟨n, hn, he⟩ := List.mem_map.1 h
  have hk : n.key = key := congrArg Prod.fst he
  have hv : n.value = v := congrArg Prod.snd he
  exact ⟨n, (find_eq_some_iff hw key n).2 ⟨hn, hk⟩, hk, hv⟩


theorem find_insert_of_ne {m : HashMap K V} (hw : WF m) (element : K × V) {key : K}
    (hne : key ≠ element.1) : (m.insert element).find key = m.find key := by
  cases hf : m.find element.1 with
  | some n => rw [insert_of_find_some element hf]
  | none =>
    rw [find_eq_find? (wf_insert hw element), find_eq_find? hw,
      elements_list_insert_of_find_none element hf, List.find?_append]
    have : ¬ element.1 = key := fun h => hne h.symm
    simp [this]

theorem find_erase_of_ne {m : HashMap K V} (hw : WF m) (k : K) {key : K}
    (hne : key ≠ k) : (m.erase k).find key = m.find key := by
  rw [find_eq_find? (wf_erase hw k), find_eq_find? hw, elements_list_erase hw, List.find?_filter]
  congr 1
  funext x
  by_cases h : x.key = key
  · have : ¬ x.key = k := fun h2 => hne (h ▸ h2)
    simp [h, hne]
  · simp [h]

theorem find_erase_self {m : HashMap K V} (hw : WF m) (key : K) :
    (m.erase key).find key = none := by
  rw [find_eq_none_iff (wf_erase hw key), keys_erase hw]
  simp [List.mem_filter]

end HashMap

/-! ## Sequences of calls -/

section TraceLemmas

variable {K V : Type} [DecidableEq K]

theorem wf_step {m : HashMap K V} (hw : WF m) (op : Op K V) : WF (step m op) := by
  cases op with
  | insert key value => exact HashMap.wf_insert hw _
  | erase key => exact HashMap.wf_erase hw _

theorem wf_foldl_step {m : HashMap K V} (hw : WF m) (ops : List (Op K V)) :
    WF (ops.foldl step m) := by
  induction ops generalizing m with
  | nil => exact hw
  | cons op r ih => exact ih (wf_step hw op)

theorem wf_run (hash_function : K → Nat) (ops : List (Op K V)) : WF (run hash_function ops) :=
  wf_foldl_step (HashMap.wf_ctor _) ops

theorem run_concat (hash_function : K → Nat) (ops : List (Op K V)) (op : Op K V) :
    run hash_function (ops ++ [op]) = step (run hash_function ops) op := by
  simp [run, List.foldl_append]

theorem run_append (hash_function : K → Nat) (pre post : List (Op K V)) :
    run hash_function (pre ++ post) = post.foldl step (run hash_function pre) := by
  simp [run, List.foldl_append]

theorem mem_keys_step {m : HashMap K V} (hw : WF m) (op : Op K V) (k : K) :
    k ∈ (step m op).keys ↔
      (k ∈ m.keys ∧ op ≠ Op.erase k) ∨ (∃ v, op = Op.insert k v) := by
  cases op with
  | insert key value =>
    simp only [step, HashMap.keys_insert hw]
    split
    · rename_i hin
      constructor
      · intro h; exact Or.inl ⟨h, by simp⟩
      · rintro (⟨h, _⟩ | ⟨v, hv⟩)
        · exact h
        · injection hv with h1 _
          exact h1 ▸ hin
    · constructor
      · intro h
        rcases List.mem_append.1 h with h1 | h1
        · exact Or.inl ⟨h1, by simp⟩
        · simp only [List.mem_singleton] at h1
          exact Or.inr ⟨value, by rw [h1]⟩
      · rintro (⟨h, _⟩ | ⟨v, hv⟩)
        · exact List.mem_append_left _ h
        · injection hv with h1 _
          simp [h1]
  | erase key =>
    simp only [step, HashMap.keys_erase hw, List.mem_filter]
    constructor
    · rintro ⟨h1, h2⟩
      refine Or.inl ⟨h1, ?_⟩
      intro he
      injection he with he
      simp [he] at h2
    · rintro (⟨h, hne⟩ | ⟨v, hv⟩)
      · refine ⟨h, ?_⟩
        have : ¬ k = key := fun he => hne (by rw [he])
        simp [this]
      · cases hv

theorem lastOpOn_concat (ops : List (Op K V)) (op : Op K V) (k : K) :
    lastOpOn (ops ++ [op]) k = if op.key = k then some op else lastOpOn ops k := by
  simp only [lastOpOn, List.filter_append, List.filter_cons, List.filter_nil]
  by_cases h : op.key = k
  · simp [h, List.getLast?_concat]
  · simp [h]

theorem live_concat (ops : List (Op K V)) (op : Op K V) (k : K) :
    live (ops ++ [op]) k = true ↔
      (live ops k = true ∧ op ≠ Op.erase k) ∨ (∃ v, op = Op.insert k v) := by
  simp only [live, lastOpOn_concat]
  cases op with
  | insert key value =>
    by_cases h : key = k
    · subst h
      simp [Op.key]
    · have : ∀ v, ¬ (key = k ∧ value = v) := fun v hv => h hv.1
      simp [Op.key, h]
  | erase key =>
    by_cases h : key = k
    · subst h
      simp [Op.key]
    · simp [Op.key, h]

/-- The keys met by iteration are the keys whose most recent call is an
`insert`. -/
theorem mem_keys_run_iff (hash_function : K → Nat) (ops : List (Op K V)) (k : K) :
    k ∈ (run hash_function ops).keys ↔ live ops k = true := by
  induction ops using List.reverseRecOn with
  | nil => simp [run, HashMap.ctor, HashMap.keys, live, lastOpOn]
  | append_singleton ops op ih =>
    rw [run_concat, mem_keys_step (wf_run _ _), live_concat, ih]

theorem find_run_eq_none_iff (hash_function : K → Nat) (ops : List (Op K V)) (k : K) :
    (run hash_function ops).find k = none ↔ live ops k = false := by
  rw [HashMap.find_eq_none_iff (wf_run _ _), mem_keys_run_iff]
  simp

theorem mem_entries_step {m : HashMap K V} (hw : WF m) (op : Op K V) {k : K} {v : V}
    (h : (k, v) ∈ m.entries) (hop : op ≠ Op.erase k) : (k, v) ∈ (step m op).entries := by
  cases op with
  | insert key value =>
    simp only [step]
    cases hf : m.find key with
    | some n => rw [HashMap.insert_of_find_some (key, value) hf]; exact h
    | none =>
      rw [HashMap.entries_insert_of_find_none (key, value) hf]
      exact List.mem_append_left _ h
  | erase key =>
    have hne : ¬ k = key := fun he => hop (by rw [he])
    simp only [step, HashMap.entries, HashMap.elements_list_erase hw]
    obtain ⟨n, hn, he⟩ := List.mem_map.1 h
    refine List.mem_map.2 ⟨n, List.mem_filter.2 ⟨hn, ?_⟩, he⟩
    have hk : n.key = k := congrArg Prod.fst he
    simp [hk, hne]

theorem mem_entries_foldl {m : HashMap K V} (hw : WF m) (ops : List (Op K V)) {k : K} {v : V}
    (h : (k, v) ∈ m.entries) (hops : Op.erase k ∉ ops) :
    (k, v) ∈ (ops.foldl step m).entries := by
  induction ops generalizing m with
  | nil => exact h
  | cons op r ih =>
    refine ih (wf_step hw op) (mem_entries_step hw op h ?_) ?_
    · intro he; exact hops (by simp [he])
    · intro he; exact hops (List.mem_cons_of_mem _ he)

theorem live_eq_false_of_not_inserted (ops : List (Op K V)) (k : K)
    (h : ∀ v, Op.insert k v ∉ ops) : live ops k = false := by
  cases hl : lastOpOn ops k with
  | none => simp [live, hl]
  | some op =>
    have hm := List.mem_of_getLast?_eq_some hl
    obtain ⟨hm1, hm2⟩ := List.mem_filter.1 hm
    cases op with
    | erase key => simp [live, hl]
    | insert key value =>
      have : key = k := by simpa [Op.key] using hm2
      subst this
      exact absurd hm1 (h value)

theorem mem_insertedKeys_iff (ops : List (Op K V)) (k : K) :
    k ∈ insertedKeys ops ↔ ∃ v, Op.insert k v ∈ ops := by
  simp only [insertedKeys, List.mem_dedup, List.mem_filterMap]
  constructor
  · rintro ⟨op, hop, he⟩
    cases op with
    | insert key value =>
      simp only [Op.insertedKey, Option.some.injEq] at he
      exact ⟨value, he ▸ hop⟩
    | erase key => simp [Op.insertedKey] at he
  · rintro ⟨v, hv⟩
    exact ⟨_, hv, rfl⟩

theorem live_or_erasedLast_of_inserted (ops : List (Op K V)) (k : K)
    (h : ∃ v, Op.insert k v ∈ ops) : erasedLast ops k = !live ops k := by
  obtain ⟨v, hv⟩ := h
  cases hl : lastOpOn ops k with
  | none =>
    have : ops.filter (fun op => decide (op.key = k)) = [] := by
      simpa [lastOpOn] using hl
    have hm : Op.insert k v ∈ ops.filter (fun op => decide (op.key = k)) :=
      List.mem_filter.2 ⟨hv, by simp [Op.key]⟩
    rw [this] at hm
    cases hm
  | some op =>
    cases op <;> simp [live, erasedLast, hl]

theorem length_filter_add_length_filter_not {α : Type} (p : α → Bool) (l : List α) :
    (l.filter p).length + (l.filter (fun a => !p a)).length = l.length := by
  induction l with
  | nil => rfl
  | cons a r ih =>
    cases h : p a <;> simp [List.filter_cons, h] <;> omega

theorem successfulInsertions_concat (hash_function : K → Nat) (ops : List (Op K V))
    (op : Op K V) (k : K) :
    successfulInsertions hash_function (ops ++ [op]) k =
      successfulInsertions hash_function ops k ++
        (if op.insertedKey = some k ∧ ((run hash_function ops).find k).isNone = true
          then [ops.length] else []) := by
  unfold successfulInsertions
  rw [List.length_append, List.length_singleton, List.range_succ, List.filter_append]
  congr 1
  · refine List.filter_congr ?_
    intro i hi
    have hlt : i < ops.length := List.mem_range.1 hi
    rw [List.getElem?_append_left hlt, List.take_append_of_le_length (Nat.le_of_lt hlt)]
  · simp only [List.filter_cons, List.filter_nil, List.getElem?_concat_length, List.take_left]
    cases op with
    | insert key value =>
      by_cases hk : key = k
      · subst hk
        cases hf : (run hash_function ops).find key <;> simp [hf, Op.insertedKey]
      · simp [hk, Op.insertedKey]
    | erase key => simp [Op.insertedKey]

theorem lastSuccessfulInsertion_concat (hash_function : K → Nat) (ops : List (Op K V))
    (op : Op K V) (k : K) :
    lastSuccessfulInsertion hash_function (ops ++ [op]) k =
      if op.insertedKey = some k ∧ ((run hash_function ops).find k).isNone = true
        then some ops.length else lastSuccessfulInsertion hash_function ops k := by
  unfold lastSuccessfulInsertion
  rw [successfulInsertions_concat]
  split
  · exact List.getLast?_concat _
  · simp

theorem lastSuccessfulInsertion_lt {hash_function : K → Nat} {ops : List (Op K V)} {k : K}
    {i : Nat} (h : lastSuccessfulInsertion hash_function ops k = some i) : i < ops.length := by
  have hm := List.mem_of_getLast?_eq_some h
  exact List.mem_range.1 (List.mem_filter.1 hm).1

/-- The keys met by iteration are ordered by the position of the insertion
that created their entry, and each of them has such an insertion. -/
theorem keys_ordered_by_creation (hash_function : K → Nat) (ops : List (Op K V)) :
    (run hash_function ops).keys.Pairwise (fun a b =>
        precedes (lastSuccessfulInsertion hash_function ops a)
          (lastSuccessfulInsertion hash_function ops b) = true) ∧
    ∀ k ∈ (run hash_function ops).keys,
      ∃ i, lastSuccessfulInsertion hash_function ops k = some i := by
  induction ops using List.reverseRecOn with
  | nil => simp [run, HashMap.ctor, HashMap.keys]
  | append_singleton ops op ih =>
    have hw := wf_run hash_function ops
    rw [run_concat]
    cases op with
    | erase key =>
      have hlast : ∀ k, lastSuccessfulInsertion hash_function (ops ++ [Op.erase key]) k
          = lastSuccessfulInsertion hash_function ops k := by
        intro k
        rw [lastSuccessfulInsertion_concat]
        simp [Op.insertedKey]
      simp only [hlast, step, HashMap.keys_erase hw]
      exact ⟨ih.1.filter _, fun k hk => ih.2 k (List.mem_filter.1 hk).1⟩
    | insert key value =>
      cases hf : (run hash_function ops).find key with
      | some n =>
        have hlast : ∀ k,
            lastSuccessfulInsertion hash_function (ops ++ [Op.insert key value]) k
              = lastSuccessfulInsertion hash_function ops k := by
          intro k
          rw [lastSuccessfulInsertion_concat]
          have : ¬ ((Op.insert key value).insertedKey = some k ∧
              ((run hash_function ops).find k).isNone = true) := by
            rintro ⟨hv, hn⟩
            simp only [Op.insertedKey, Option.some.injEq] at hv
            rw [← hv, hf] at hn
            cases hn
          rw [if_neg this]
        simp only [hlast, step]
        rw [HashMap.insert_of_find_some (key, value) hf]
        exact ih
      | none =>
        have hnotin : key ∉ (run hash_function ops).keys :=
          (HashMap.find_eq_none_iff hw key).1 hf
        have hnew : lastSuccessfulInsertion hash_function (ops ++ [Op.insert key value]) key
            = some ops.length := by
          rw [lastSuccessfulInsertion_concat, if_pos ⟨rfl, by rw [hf]; rfl⟩]
        have hold : ∀ k, k ≠ key →
            lastSuccessfulInsertion hash_function (ops ++ [Op.insert key value]) k
              = lastSuccessfulInsertion hash_function ops k := by
          intro k hk
          rw [lastSuccessfulInsertion_concat]
          have : ¬ ((Op.insert key value).insertedKey = some k ∧
              ((run hash_function ops).find k).isNone = true) := by
            rintro ⟨hv, _⟩
            simp only [Op.insertedKey, Option.some.injEq] at hv
            exact hk hv.symm
          rw [if_neg this]
        have hne : ∀ a ∈ (run hash_function ops).keys, a ≠ key :=
          fun a ha he => hnotin (he ▸ ha)
        simp only [step]
        rw [HashMap.keys_insert_of_find_none (key, value) hf]
        constructor
        · rw [List.pairwise_append]
          refine ⟨?_, List.pairwise_singleton _ _, ?_⟩
          · refine ih.1.imp_of_mem ?_
            intro a b ha hb hab
            rw [hold a (hne a ha), hold b (hne b hb)]
            exact hab
          · intro a ha b hb
            simp only [List.mem_singleton] at hb
            subst hb
            obtain ⟨i, hi⟩ := ih.2 a ha
            rw [hold a (hne a ha), hnew, hi]
            simpa [precedes] using lastSuccessfulInsertion_lt hi
        · intro k hk
          rcases List.mem_append.1 hk with h1 | h1
          · obtain ⟨i, hi⟩ := ih.2 k h1
            exact ⟨i, by rw [hold k (hne k h1), hi]⟩
          · simp only [List.mem_singleton] at h1
            subst h1
            exact ⟨_, hnew⟩

end TraceLemmas

/-! ## Ranges, copies and the reference list -/

section RangeLemmas

variable {K V : Type} [DecidableEq K]

theorem map_fst_entries (m : HashMap K V) : m.entries.map Prod.fst = m.keys := by
  simp [HashMap.entries, HashMap.keys, List.map_map, Function.comp]

theorem length_entries (m : HashMap K V) : m.entries.length = m.elements_list_.length := by
  simp [HashMap.entries]

theorem size_eq_length_entries {m : HashMap K V} (hw : WF m) : m.size = m.entries.length := by
  simp [HashMap.size, HashMap.entries, hw.count]

theorem entries_insert {m : HashMap K V} (hw : WF m) (element : K × V) :
    (m.insert element).entries = Reference.insert m.entries element := by
  unfold Reference.insert
  rw [map_fst_entries]
  cases hf : m.find element.1 with
  | some n =>
    rw [HashMap.insert_of_find_some element hf, if_pos (HashMap.mem_keys_of_find hf)]
  | none =>
    rw [HashMap.entries_insert_of_find_none element hf,
      if_neg ((HashMap.find_eq_none_iff hw _).1 hf)]

theorem entries_erase {m : HashMap K V} (hw : WF m) (key : K) :
    (m.erase key).entries = Reference.erase m.entries key := by
  simp only [HashMap.entries, Reference.erase, HashMap.elements_list_erase hw, List.filter_map]
  rfl

theorem find_pair_eq {m : HashMap K V} (hw : WF m) (key : K) :
    m.find_pair key = Reference.find m.entries key := by
  simp only [HashMap.find_pair, Reference.find, HashMap.entries, HashMap.find_eq_find? hw,
    List.find?_map]
  rfl

theorem at_eq {m : HashMap K V} (hw : WF m) (key : K) :
    m.at_ key = Reference.at_ m.entries key := by
  have h := find_pair_eq hw key
  unfold HashMap.find_pair at h
  unfold HashMap.at_ Reference.at_
  rw [← h]
  cases m.find key <;> rfl

theorem insert_all_elements_eq_foldl (m : HashMap K V) (xs : List (K × V)) :
    m.insert_all_elements xs = xs.foldl HashMap.insert m := by
  induction xs generalizing m with
  | nil => rfl
  | cons a r ih => exact ih (m.insert a)

theorem insert_all_elements_append (m : HashMap K V) (xs ys : List (K × V)) :
    m.insert_all_elements (xs ++ ys) = (m.insert_all_elements xs).insert_all_elements ys := by
  simp [insert_all_elements_eq_foldl, List.foldl_append]

theorem entries_insert_all_elements {m : HashMap K V} (hw : WF m) (xs : List (K × V)) :
    (m.insert_all_elements xs).entries = m.entries ++ firstOccurrences m.keys xs := by
  induction xs generalizing m with
  | nil => simp [HashMap.insert_all_elements, firstOccurrences]
  | cons a r ih =>
    simp only [HashMap.insert_all_elements, firstOccurrences]
    cases hf : m.find a.1 with
    | some n =>
      rw [HashMap.insert_of_find_some a hf, if_pos (HashMap.mem_keys_of_find hf)]
      exact ih hw
    | none =>
      rw [if_neg ((HashMap.find_eq_none_iff hw _).1 hf), ih (HashMap.wf_insert hw a),
        HashMap.entries_insert_of_find_none a hf, HashMap.keys_insert_of_find_none a hf]
      simp

theorem firstOccurrences_of_nodup (seen : List K) (xs : List (K × V))
    (hnd : (xs.map Prod.fst).Nodup) (hdis : ∀ e ∈ xs, e.1 ∉ seen) :
    firstOccurrences seen xs = xs := by
  induction xs generalizing seen with
  | nil => rfl
  | cons a r ih =>
    rw [List.map_cons, List.nodup_cons] at hnd
    simp only [firstOccurrences]
    rw [if_neg (hdis a (List.mem_cons_self _ _))]
    congr 1
    refine ih _ hnd.2 ?_
    intro e he hmem
    rcases List.mem_append.1 hmem with h1 | h1
    · exact hdis e (List.mem_cons_of_mem _ he) h1
    · simp only [List.mem_singleton] at h1
      exact hnd.1 (List.mem_map.2 ⟨e, he, h1⟩)

/-- The entries of a copy are the entries of its source. -/
theorem entries_operator_assign (self : HashMap K V) {other : HashMap K V} (ho : WF other) :
    (HashMap.operator_assign self other).entries = other.entries := by
  have hstart : WF ({ self.clear with
      hasher_ := other.hasher_
      table_size_ := other.table_size_
      table_ := vresize self.clear.table_ other.table_size_ } : HashMap K V) := by
    have hnil : ∀ i, chainAt (vresize self.clear.table_ other.table_size_) i = [] := by
      intro i
      refine HashMap.chainAt_eq_nil_of_forall (HashMap.vresize_all_nil ?_ _) i
      exact HashMap.vresize_all_nil (by simp) _
    refine ⟨ho.size_pos, length_vresize _ _, by simp [HashMap.clear], by simp [HashMap.clear],
      rfl, ?_, ?_, ?_, ?_⟩
    · have := ho.size_pos
      show 0 < kAlpha * other.table_size_
      simp only [kAlpha]
      omega
    · intro n hn
      simp [HashMap.clear] at hn
    · intro i h hh
      change h ∈ chainAt (vresize self.clear.table_ other.table_size_) i at hh
      rw [hnil] at hh
      cases hh
    · intro i
      show (chainAt (vresize self.clear.table_ other.table_size_) i).Nodup
      rw [hnil]
      exact List.nodup_nil
  unfold HashMap.operator_assign
  rw [entries_insert_all_elements hstart]
  have hk : (other.entries.map Prod.fst).Nodup := by
    rw [map_fst_entries]; exact ho.keys_nodup
  rw [firstOccurrences_of_nodup _ _ hk (by simp [HashMap.keys, HashMap.clear])]
  simp [HashMap.entries, HashMap.clear]

theorem find_insert_self {m : HashMap K V} (hw : WF m) (element : K × V) :
    ∃ n, (m.insert element).find element.1 = some n ∧ n.key = element.1 ∧
      (m.find element.1 = none → n.value = element.2) ∧
      (∀ n0, m.find element.1 = some n0 → n = n0) := by
  cases hf : m.find element.1 with
  | some n0 =>
    refine ⟨n0, ?_, (scan_some hf).2.1, fun h => (by cases h), ?_⟩
    · rw [HashMap.insert_of_find_some element hf]; exact hf
    · intro n1 h1
      injection h1
  | none =>
    have hmem : (element.1, element.2) ∈ (m.insert element).entries := by
      rw [HashMap.entries_insert_of_find_none element hf]
      simp
    obtain ⟨n, h1, h2, h3⟩ := HashMap.find_value_of_mem_entries (HashMap.wf_insert hw element) hmem
    exact ⟨n, h1, h2, fun _ => h3, fun n0 h => (by cases h)⟩

theorem entries_assign_value {m : HashMap K V} (hw : WF m) {n : Node K V}
    (hn : n ∈ m.elements_list_) (w : V) :
    (m.assign_value n.id w).entries
      = m.entries.map (fun e => if e.1 = n.key then (e.1, w) else e) := by
  simp only [HashMap.entries, HashMap.assign_value, List.map_map]
  refine List.map_congr_left ?_
  intro x hx
  simp only [Function.comp]
  by_cases he : x.id = n.id
  · have : x = n := List.inj_on_of_nodup_map hw.ids_nodup hx hn he
    subst this
    simp
  · have hne : x.key ≠ n.key := fun hkk => he (by
      rw [List.inj_on_of_nodup_map hw.keys_nodup hx hn hkk])
    simp [he, hne]

theorem find_assign_value_self {m : HashMap K V} (hw : WF m) {n : Node K V}
    (hn : n ∈ m.elements_list_) (w : V) :
    (m.assign_value n.id w).find n.key = some { n with value := w } := by
  rw [HashMap.find_eq_some_iff (HashMap.wf_assign_value hw _ _)]
  refine ⟨?_, rfl⟩
  simp only [HashMap.assign_value, List.mem_map]
  exact ⟨n, hn, by simp⟩

theorem find_assign_value_of_ne {m : HashMap K V} (hw : WF m) {n : Node K V}
    (hn : n ∈ m.elements_list_) (w : V) {key : K} (hne : key ≠ n.key) :
    (m.assign_value n.id w).find key = m.find key := by
  have hw2 := HashMap.wf_assign_value hw n.id w
  cases hf : m.find key with
  | none =>
    rw [HashMap.find_eq_none_iff hw] at hf
    rw [HashMap.find_eq_none_iff hw2]
    intro hmem
    apply hf
    simp only [HashMap.keys, HashMap.assign_value, List.mem_map] at hmem ⊢
    obtain ⟨x, ⟨x0, hx0, rfl⟩, hx⟩ := hmem
    refine ⟨x0, hx0, ?_⟩
    rw [← hx]
    split <;> rfl
  | some x =>
    obtain ⟨hx, hk⟩ := (HashMap.find_eq_some_iff hw key x).1 hf
    rw [HashMap.find_eq_some_iff hw2]
    refine ⟨?_, hk⟩
    simp only [HashMap.assign_value, List.mem_map]
    refine ⟨x, hx, ?_⟩
    have : x.id ≠ n.id := by
      intro he
      have hxn : x = n := List.inj_on_of_nodup_map hw.ids_nodup hx hn he
      exact hne (by rw [← hk, hxn])
    simp [this]

theorem find_table_resize {m : HashMap K V} (hw : WF m) (key : K) :
    m.table_resize.find key = m.find key := by
  rw [HashMap.find_eq_find? (HashMap.wf_table_resize hw), HashMap.find_eq_find? hw]
  rfl

theorem wf_subscript_assign [Inhabited V] {m : HashMap K V} (hw : WF m) (key : K) (w : V) :
    WF (m.subscript_assign key w) := by
  unfold HashMap.subscript_assign
  have hw1 : WF (m.subscript key).1 := HashMap.wf_insert hw _
  split
  · exact HashMap.wf_assign_value hw1 _ _
  · exact hw1

theorem entries_subscript_assign [Inhabited V] {m : HashMap K V} (hw : WF m) (key : K) (w : V) :
    (m.subscript_assign key w).entries = Reference.assign m.entries key w := by
  obtain ⟨n, h1, h2, _, _⟩ := find_insert_self hw (key, (default : V))
  have hw1 : WF (m.insert (key, default)) := HashMap.wf_insert hw _
  have hn : n ∈ (m.insert (key, default)).elements_list_ :=
    ((HashMap.find_eq_some_iff hw1 key n).1 h1).1
  have hk : n.key = key := h2
  have hsub : (m.subscript key).2 = some n := h1
  unfold HashMap.subscript_assign
  rw [hsub]
  show ((m.insert (key, default)).assign_value n.id w).entries = _
  rw [entries_assign_value hw1 hn, entries_insert hw, hk]
  rfl

theorem wf_apply [Inhabited V] {m : HashMap K V} (hw : WF m) (c : Cmd K V) :
    WF (Cmd.apply m c) := by
  cases c with
  | insert key value => exact HashMap.wf_insert hw _
  | assign key w => exact wf_subscript_assign hw key w
  | erase key => exact HashMap.wf_erase hw _
  | clear => exact HashMap.wf_clear _

theorem entries_apply [Inhabited V] {m : HashMap K V} (hw : WF m) (c : Cmd K V) :
    (Cmd.apply m c).entries = Reference.apply m.entries c := by
  cases c with
  | insert key value => exact entries_insert hw _
  | assign key w => exact entries_subscript_assign hw key w
  | erase key => exact entries_erase hw key
  | clear => rfl

/-- The simulation: the map after a sequence of statements is well formed and
its entry sequence is the list of the reference model. -/
theorem runCmds_refines [Inhabited V] (hash_function : K → Nat) (cmds : List (Cmd K V)) :
    WF (runCmds hash_function cmds) ∧
    (runCmds hash_function cmds).entries = Reference.run cmds := by
  induction cmds using List.reverseRecOn with
  | nil => exact ⟨HashMap.wf_ctor _, rfl⟩
  | append_singleton cmds c ih =>
    have h1 : runCmds hash_function (cmds ++ [c])
        = Cmd.apply (runCmds hash_function cmds) c := by
      simp [runCmds, List.foldl_append]
    have h2 : Reference.run (cmds ++ [c]) = Reference.apply (Reference.run cmds) c := by
      simp [Reference.run, List.foldl_append]
    rw [h1, h2]
    exact ⟨wf_apply ih.1 c, by rw [entries_apply ih.1 c, ih.2]⟩

theorem mem_chainAt_of_mem {t : List (List Nat)} {c : List Nat} (hc : c ∈ t) :
    ∃ j, chainAt t j = c := by
  obtain ⟨j, hj, he⟩ := List.mem_iff_getElem.1 hc
  refine ⟨j, ?_⟩
  simp [chainAt, List.getD_eq_getElem?_getD, List.getElem?_eq_getElem hj, he]

theorem count_flatten_eq_one {t : List (List Nat)} {a : Nat} {i : Nat}
    (hmem : a ∈ chainAt t i) (hnd : (chainAt t i).Nodup)
    (hother : ∀ j, j ≠ i → a ∉ chainAt t j) : t.flatten.count a = 1 := by
  induction t generalizing i with
  | nil => simp [chainAt] at hmem
  | cons c r ih =>
    rw [List.flatten_cons, List.count_append]
    cases i with
    | zero =>
      have h1 : c.count a = 1 := List.count_eq_one_of_mem hnd hmem
      have h2 : r.flatten.count a = 0 := by
        rw [List.count_eq_zero, List.mem_flatten]
        rintro ⟨c', hc', ha⟩
        obtain ⟨j, hj⟩ := mem_chainAt_of_mem hc'
        exact hother (j + 1) (Nat.succ_ne_zero j) (by
          show a ∈ chainAt r j
          rw [hj]; exact ha)
      omega
    | succ i =>
      have h1 : c.count a = 0 := by
        rw [List.count_eq_zero]
        exact hother 0 (Nat.succ_ne_zero i).symm
      have h2 : r.flatten.count a = 1 := by
        refine ih hmem hnd ?_
        intro j hj
        exact hother (j + 1) (fun h => hj (Nat.succ.inj h))
      omega

/-- Each node of the entry list has exactly one iterator in the table. -/
theorem count_table {m : HashMap K V} (hw : WF m) {n : Node K V} (hn : n ∈ m.elements_list_) :
    m.table_.flatten.count n.id = 1 := by
  refine count_flatten_eq_one (hw.filed n hn) (hw.chain_nodup _) ?_
  intro j hj hmem
  obtain ⟨n', hn', he, hi⟩ := hw.sound j n.id hmem
  have : n' = n := List.inj_on_of_nodup_map hw.ids_nodup hn' hn he
  subst this
  exact hj hi.symm

/-- Each iterator of the table designates a node of the entry list. -/
theorem table_handles_live {m : HashMap K V} (hw : WF m) {c : List Nat} (hc : c ∈ m.table_)
    {h : Nat} (hh : h ∈ c) : ∃ n ∈ m.elements_list_, n.id = h := by
  obtain ⟨j, hj⟩ := mem_chainAt_of_mem hc
  obtain ⟨n, hn, he, _⟩ := hw.sound j h (hj ▸ hh)
  exact ⟨n, hn, he⟩

theorem flatten_table_perm {m : HashMap K V} (hw : WF m) :
    m.table_.flatten.Perm (m.elements_list_.map Node.id) := by
  rw [List.perm_iff_count]
  intro a
  by_cases ha : a ∈ m.elements_list_.map Node.id
  · obtain ⟨n, hn, rfl⟩ := List.mem_map.1 ha
    rw [count_table hw hn, List.count_eq_one_of_mem hw.ids_nodup ha]
  · rw [List.count_eq_zero_of_not_mem ha, List.count_eq_zero, List.mem_flatten]
    rintro ⟨c, hc, hh⟩
    obtain ⟨n, hn, he⟩ := table_handles_live hw hc hh
    exact ha (List.mem_map.2 ⟨n, hn, he⟩)

theorem table_size_insert_of_find_none {m : HashMap K V} (element : K × V)
    (hf : m.find element.1 = none) :
    (m.insert element).table_size_ =
      if kAlpha * m.table_size_ ≤ m.elements_number_ + 1 then m.table_size_ * kAlpha
      else m.table_size_ := by
  rw [HashMap.insert_of_find_none element hf]
  split <;> rfl

/-- Fewer than sixteen pairs with distinct keys, inserted into a map
constructed empty, leave the table at its initial size. -/
theorem below_limit (hash_function : K → Nat) (xs : List (K × V))
    (hnd : (xs.map Prod.fst).Nodup) (hlen : xs.length < 16) :
    ((HashMap.ctor hash_function).insert_all_elements xs).table_size_ = 8 ∧
    ((HashMap.ctor hash_function).insert_all_elements xs).elements_number_ = xs.length ∧
    ((HashMap.ctor hash_function).insert_all_elements xs).keys = xs.map Prod.fst := by
  induction xs using List.reverseRecOn with
  | nil => exact ⟨rfl, rfl, rfl⟩
  | append_singleton xs e ih =>
    rw [List.map_append, List.nodup_append] at hnd
    rw [List.length_append, List.length_singleton] at hlen
    obtain ⟨h1, h2, h3⟩ := ih hnd.1 (by omega)
    have hw : WF ((HashMap.ctor hash_function : HashMap K V).insert_all_elements xs) :=
      HashMap.wf_insert_all_elements (HashMap.wf_ctor _) _
    have hnot : e.1 ∉ ((HashMap.ctor hash_function : HashMap K V).insert_all_elements xs).keys := by
      rw [h3]
      intro hmem
      exact hnd.2.2 hmem (by simp)
    have hf := (HashMap.find_eq_none_iff hw e.1).2 hnot
    have hstep : (HashMap.ctor hash_function : HashMap K V).insert_all_elements (xs ++ [e])
        = ((HashMap.ctor hash_function).insert_all_elements xs).insert e := by
      rw [insert_all_elements_append]
      rfl
    rw [hstep]
    refine ⟨?_, ?_, ?_⟩
    · rw [table_size_insert_of_find_none e hf, h1, h2]
      simp only [kAlpha]
      rw [if_neg (by omega)]
    · rw [HashMap.elements_number_insert_of_find_none e hf, h2, List.length_append,
        List.length_singleton]
    · rw [HashMap.keys_insert_of_find_none e hf, h3, List.map_append]
      rfl

/-- The sixteenth pair with a distinct key doubles the table. -/
theorem at_limit (hash_function : K → Nat) (xs : List (K × V))
    (hnd : (xs.map Prod.fst).Nodup) (hlen : xs.length = 16) :
    ((HashMap.ctor hash_function).insert_all_elements xs).table_size_ = 16 := by
  rcases List.eq_nil_or_concat xs with h | ⟨ys, e, h⟩
  · subst h; cases hlen
  · rw [List.concat_eq_append] at h
    subst h
    rw [List.map_append, List.nodup_append] at hnd
    rw [List.length_append, List.length_singleton] at hlen
    obtain ⟨h1, h2, h3⟩ := below_limit hash_function ys hnd.1 (by omega)
    have hw : WF ((HashMap.ctor hash_function : HashMap K V).insert_all_elements ys) :=
      HashMap.wf_insert_all_elements (HashMap.wf_ctor _) _
    have hnot : e.1 ∉ ((HashMap.ctor hash_function : HashMap K V).insert_all_elements ys).keys := by
      rw [h3]
      intro hmem
      exact hnd.2.2 hmem (by simp)
    have hf := (HashMap.find_eq_none_iff hw e.1).2 hnot
    have hstep : (HashMap.ctor hash_function : HashMap K V).insert_all_elements (ys ++ [e])
        = ((HashMap.ctor hash_function).insert_all_elements ys).insert e := by
      rw [insert_all_elements_append]
      rfl
    rw [hstep, table_size_insert_of_find_none e hf, h1, h2]
    simp only [kAlpha]
    rw [if_pos (by omega)]

theorem mem_firstOccurrences (seen : List K) (pre post : List (K × V)) (k : K) (v : V)
    (hs : k ∉ seen) (hp : k ∉ pre.map Prod.fst) :
    (k, v) ∈ firstOccurrences seen (pre ++ (k, v) :: post) := by
  induction pre generalizing seen with
  | nil => simp [firstOccurrences, hs]
  | cons a r ih =>
    rw [List.map_cons, List.mem_cons, not_or] at hp
    simp only [List.cons_append, firstOccurrences]
    split
    · exact ih seen hs hp.2
    · refine List.mem_cons_of_mem _ (ih _ ?_ hp.2)
      intro hmem
      rcases List.mem_append.1 hmem with h1 | h1
      · exact hs h1
      · simp only [List.mem_singleton] at h1
        exact hp.1 h1

theorem find_pair_of_mem_entries {m : HashMap K V} (hw : WF m) {k : K} {v : V}
    (h : (k, v) ∈ m.entries) : m.find_pair k = some (k, v) := by
  obtain ⟨n, h1, h2, h3⟩ := HashMap.find_value_of_mem_entries hw h
  simp [HashMap.find_pair, h1, h2, h3]

theorem find_pair_insert_all_elements_of_mem {m : HashMap K V} (hw : WF m)
    (xs : List (K × V)) {k : K} (hk : k ∈ m.keys) :
    (m.insert_all_elements xs).find_pair k = m.find_pair k := by
  have hsome : ∃ e, m.find_pair k = some e := by
    cases hf : m.find k with
    | none => exact absurd hk ((HashMap.find_eq_none_iff hw k).1 hf)
    | some n => exact ⟨(n.key, n.value), by simp [HashMap.find_pair, hf]⟩
  obtain ⟨e, he⟩ := hsome
  have he2 := he
  rw [find_pair_eq hw] at he2
  rw [he, find_pair_eq (HashMap.wf_insert_all_elements hw xs), entries_insert_all_elements hw]
  unfold Reference.find at he2 ⊢
  rw [List.find?_append, he2]
  rfl

end RangeLemmas

/-! ## The claims about single calls -/

section Claims

variable {K V : Type} [DecidableEq K]

/-- C2. `insert` on a key that `find` reports present changes nothing: the map
after the call is the map before it, in every data member (entry list with
keys, values and order, `elements_number_`, `table_size_`, every chain of
`table_`), so the stored value is not overwritten. It holds in every state,
reachable or not. -/
theorem insert_present_is_noop (m : HashMap K V) (k : K) (v : V)
    (hf : m.find k ≠ none) : m.insert (k, v) = m := by
  cases h : m.find k with
  | none => exact absurd h hf
  | some n => exact HashMap.insert_of_find_some (k, v) h

/-- C3. `insert` of an absent key into a reachable map appends `(k, v)` as the
last entry, makes `size()` one larger, makes `find(k)` yield `v`, and leaves
the result of `find` for every other key as it was, resize or not. -/
theorem insert_absent_appends [Inhabited V] (m : HashMap K V) (k : K) (v : V)
    (hr : Reachable m) (hf : m.find k = none) :
    (m.insert (k, v)).entries = m.entries ++ [(k, v)] ∧
    (m.insert (k, v)).size = m.size + 1 ∧
    (∃ n, (m.insert (k, v)).find k = some n ∧ n.key = k ∧ n.value = v) ∧
    ∀ k', k' ≠ k → (m.insert (k, v)).find k' = m.find k' := by
  have hf' : m.find (k, v).1 = none := hf
  refine ⟨HashMap.entries_insert_of_find_none (k, v) hf',
    HashMap.elements_number_insert_of_find_none (k, v) hf', ?_, ?_⟩
  · refine HashMap.find_value_of_mem_entries (HashMap.wf_insert hr.wf _) ?_
    rw [HashMap.entries_insert_of_find_none (k, v) hf']
    simp
  · intro k' hne
    exact HashMap.find_insert_of_ne hr.wf (k, v) hne


/-- The witness of C2: key 2 is present in the three-entry map and inserting
`(2, 99)` returns the same map. -/
theorem insert_present_is_noop_witness :
    sample3.find 2 ≠ none ∧ sample3.insert (2, 99) = sample3 :=
  ⟨by decide, insert_present_is_noop sample3 2 99 (by decide)⟩

/-- The witness of C3: the sixteenth insertion into the fifteen-entry map,
the one that triggers the resize. -/
theorem insert_absent_appends_witness :
    Reachable sample15 ∧ sample15.find 15 = none ∧
    ((sample15.insert (15, 150)).entries = sample15.entries ++ [(15, 150)] ∧
    (sample15.insert (15, 150)).size = sample15.size + 1 ∧
    (∃ n, (sample15.insert (15, 150)).find 15 = some n ∧ n.key = 15 ∧ n.value = 150) ∧
    ∀ k', k' ≠ 15 → (sample15.insert (15, 150)).find k' = sample15.find k') :=
  ⟨Reachable.ctor_range _ _, by decide,
    insert_absent_appends sample15 15 150 (Reachable.ctor_range _ _) (by decide)⟩

/-- C5. `at(k)` throws `std::out_of_range` exactly when `find(k)` is `end()`;
otherwise it returns the value of the entry that `find(k)` yields; the call
leaves the map as it is; and no other call of the interface (`insert`,
`operator[]`, `erase`, `find`, `clear`, `size`, `empty`) throws. -/
theorem at_throws_iff_absent [Inhabited V] (m : HashMap K V) (k : K) :
    (m.at_ k = Except.error Error.out_of_range ↔ m.find k = none) ∧
    (∀ n, m.find k = some n → m.at_ k = Except.ok n.value) ∧
    (∀ m' r, exec m (Call.at_ k) = Except.ok (m', r) → m' = m) ∧
    (∀ c e, exec m c = Except.error e → ∃ k', c = Call.at_ k' ∧ m.find k' = none) := by
  refine ⟨?_, ?_, ?_, ?_⟩
  · cases h : m.find k <;> simp [HashMap.at_, h]
  · intro n h
    simp [HashMap.at_, h]
  · intro m' r h
    simp only [exec] at h
    cases h2 : m.at_ k with
    | error e => rw [h2] at h; cases h
    | ok v =>
      rw [h2] at h
      injection h with h3
      exact (congrArg Prod.fst h3).symm
  · intro c e h
    cases c with
    | at_ k' =>
      refine ⟨k', rfl, ?_⟩
      cases hf : m.find k' with
      | none => rfl
      | some n => simp [exec, HashMap.at_, hf] at h
    | insert _ => cases h
    | subscript _ => cases h
    | erase _ => cases h
    | find _ => cases h
    | clear => cases h
    | size => cases h
    | empty => cases h

/-- C6. `erase` of a present key from a reachable map makes `size()` one
smaller and `find(k)` equal to `end()`, removes exactly the entry of `k` from
the entry sequence (the entries before and after it keep their values and
order), leaves `find` of every other key as it was, and keeps `table_size_`. -/
theorem erase_present_removes [Inhabited V] (m : HashMap K V) (k : K)
    (hr : Reachable m) (hf : m.find k ≠ none) :
    (m.erase k).size + 1 = m.size ∧
    (m.erase k).find k = none ∧
    (∃ pre v post, m.entries = pre ++ (k, v) :: post ∧ (m.erase k).entries = pre ++ post) ∧
    (∀ k', k' ≠ k → (m.erase k).find k' = m.find k') ∧
    (m.erase k).table_size_ = m.table_size_ := by
  have hw := hr.wf
  cases h : m.find k with
  | none => exact absurd h hf
  | some n =>
    obtain ⟨pre, post, _, he⟩ := HashMap.erase_of_find_some h
    obtain ⟨hn, hk, _⟩ := scan_some h
    obtain ⟨a, b, hab⟩ := List.append_of_mem hn
    have hsplit : listErase m.elements_list_ n.id = a ++ b := by
      have := hw.ids_nodup
      rw [hab] at this ⊢
      exact HashMap.listErase_split this
    have hcount := hw.count
    refine ⟨?_, HashMap.find_erase_self hw k, ?_, ?_, ?_⟩
    · rw [he]
      show m.elements_number_ - 1 + 1 = m.elements_number_
      rw [hcount, hab]
      simp only [List.length_append, List.length_cons]
      omega
    · refine ⟨a.map (fun x => (x.key, x.value)), n.value, b.map (fun x => (x.key, x.value)),
        ?_, ?_⟩
      · simp [HashMap.entries, hab, hk]
      · rw [he]
        show (listErase m.elements_list_ n.id).map _ = _
        rw [hsplit]
        simp
    · intro k' hne
      exact HashMap.find_erase_of_ne hw k hne
    · rw [he]

/-- The witness of C6: erasing key 2 from the three-entry map. -/
theorem erase_present_removes_witness :
    Reachable sample3 ∧ sample3.find 2 ≠ none ∧
    ((sample3.erase 2).size + 1 = sample3.size ∧
    (sample3.erase 2).find 2 = none ∧
    (∃ pre v post, sample3.entries = pre ++ (2, v) :: post ∧
      (sample3.erase 2).entries = pre ++ post) ∧
    (∀ k', k' ≠ 2 → (sample3.erase 2).find k' = sample3.find k') ∧
    (sample3.erase 2).table_size_ = sample3.table_size_) :=
  ⟨Reachable.ctor_range _ _, by decide,
    erase_present_removes sample3 2 (Reachable.ctor_range _ _) (by decide)⟩

/-- C7. `erase` on a key that `find` reports absent returns the map as it
was, in every data member (entry list, `elements_number_`, `table_size_`,
every chain); the call is total, it has no failure. It holds in every state,
reachable or not. -/
theorem erase_absent_is_noop (m : HashMap K V) (k : K) (hf : m.find k = none) :
    m.erase k = m :=
  HashMap.erase_of_find_none hf

/-- The witness of C7: key 7 is absent from the three-entry map. -/
theorem erase_absent_is_noop_witness :
    sample3.find 7 = none ∧ sample3.erase 7 = sample3 :=
  ⟨by decide, erase_absent_is_noop sample3 7 (by decide)⟩

/-- C9. In every reachable state `elements_number_ < 2 * table_size_`, and it
holds again when a further `insert` returns. -/
theorem load_factor_invariant [Inhabited V] (m : HashMap K V) (hr : Reachable m) :
    m.elements_number_ < 2 * m.table_size_ ∧
    ∀ element, (m.insert element).elements_number_ < 2 * (m.insert element).table_size_ :=
  ⟨hr.wf.load, fun element => (HashMap.wf_insert hr.wf element).load⟩

/-- The witness of C9: the fifteen-entry map, whose next insertion reaches the
load limit of the initial table. -/
theorem load_factor_invariant_witness :
    Reachable sample15 ∧
    (sample15.elements_number_ < 2 * sample15.table_size_ ∧
    ∀ element, (sample15.insert element).elements_number_
      < 2 * (sample15.insert element).table_size_) :=
  ⟨Reachable.ctor_range _ _, load_factor_invariant sample15 (Reachable.ctor_range _ _)⟩


/-! ## The claims about sequences of calls -/

/-- C1. First write wins: for every hash function and every sequence of
`insert` and `erase` calls on an empty map in which `insert((k, v))` is the
first insertion of `k` and no `erase(k)` follows it, `find(k)` on the final
map is not `end()` and yields `v`, whatever later calls insert for `k`. -/
theorem first_write_wins (hash_function : K → Nat) (pre post : List (Op K V)) (k : K) (v : V)
    (hpre : ∀ v', Op.insert k v' ∉ pre) (hpost : Op.erase k ∉ post) :
    ∃ n, (run hash_function (pre ++ Op.insert k v :: post)).find k = some n ∧
      n.key = k ∧ n.value = v := by
  have hw := wf_run hash_function pre
  have hf : (run hash_function pre).find (k, v).1 = none :=
    (find_run_eq_none_iff hash_function pre k).2 (live_eq_false_of_not_inserted pre k hpre)
  have hmem : (k, v) ∈ (step (run hash_function pre) (Op.insert k v)).entries := by
    simp only [step]
    rw [HashMap.entries_insert_of_find_none (k, v) hf]
    simp
  have hfinal : (k, v) ∈ (run hash_function (pre ++ Op.insert k v :: post)).entries := by
    rw [run_append, List.foldl_cons]
    exact mem_entries_foldl (wf_step hw _) post hmem hpost
  exact HashMap.find_value_of_mem_entries (wf_run _ _) hfinal

/-- The witness of C1: insert `(1, 10)`, `(2, 20)`, `(1, 30)`; `find(1)` yields
10. -/
theorem first_write_wins_witness :
    (∀ v', Op.insert 1 v' ∉ ([] : List (Op Nat Nat))) ∧
    Op.erase 1 ∉ [Op.insert 2 20, Op.insert 1 30] ∧
    ∃ n, (run id ([] ++ Op.insert 1 10 :: [Op.insert 2 20, Op.insert 1 30])).find 1 = some n ∧
      n.key = 1 ∧ n.value = 10 :=
  ⟨by simp, by decide,
    first_write_wins id [] [Op.insert 2 20, Op.insert 1 30] 1 10 (by simp) (by decide)⟩

/-- C4. For every sequence of `insert` and `erase` calls on an empty map and
every key that is never inserted, or whose most recent call in the sequence is
`erase`, `find` returns `end()` and `at` throws `std::out_of_range`. -/
theorem absent_keys_reported_absent (hash_function : K → Nat) (ops : List (Op K V)) (k : K)
    (h : (∀ v, Op.insert k v ∉ ops) ∨ lastOpOn ops k = some (Op.erase k)) :
    (run hash_function ops).find k = none ∧
    (run hash_function ops).at_ k = Except.error Error.out_of_range := by
  have hl : live ops k = false := by
    rcases h with h | h
    · exact live_eq_false_of_not_inserted ops k h
    · simp [live, h]
  have hf := (find_run_eq_none_iff hash_function ops k).2 hl
  exact ⟨hf, by simp [HashMap.at_, hf]⟩

/-- The witness of C4: key 2 is inserted and then erased. -/
theorem absent_keys_reported_absent_witness :
    ((∀ v, Op.insert 2 v ∉ [Op.insert 1 10, Op.insert 2 20, Op.erase 2]) ∨
      lastOpOn [Op.insert 1 10, Op.insert 2 20, Op.erase 2] 2 = some (Op.erase 2)) ∧
    ((run id [Op.insert 1 10, Op.insert 2 20, Op.erase 2]).find 2 = none ∧
    (run id [Op.insert 1 10, Op.insert 2 20, Op.erase 2]).at_ 2
      = Except.error Error.out_of_range) :=
  ⟨Or.inr (by decide),
    absent_keys_reported_absent id [Op.insert 1 10, Op.insert 2 20, Op.erase 2] 2
      (Or.inr (by decide))⟩

/-- C8, as the claim states it, fails: after insert 1, insert 2, erase 1,
insert 1 the map has two entries, while two distinct keys were inserted and
one distinct key was erased. -/
theorem size_distinct_difference_counterexample :
    (run id reinsertOps).size ≠
      (insertedKeys reinsertOps).length - (erasedKeys reinsertOps).length := by
  decide

/-- C8, amended. For every sequence of `insert` and `erase` calls on an empty
map, `size()` of the result is the number of distinct keys inserted minus the
number of those keys whose most recent call in the sequence is an `erase`. -/
theorem size_eq_inserted_minus_erased_last (hash_function : K → Nat) (ops : List (Op K V)) :
    (run hash_function ops).size =
      (insertedKeys ops).length - ((insertedKeys ops).filter (erasedLast ops)).length := by
  have hw := wf_run hash_function ops
  have hsize : (run hash_function ops).size = (run hash_function ops).keys.length := by
    simp [HashMap.size, HashMap.keys, hw.count]
  have hperm : ((run hash_function ops).keys).Perm ((insertedKeys ops).filter (live ops)) := by
    have hnd : ((insertedKeys ops).filter (live ops)).Nodup :=
      (List.nodup_dedup _).filter _
    refine (List.perm_ext_iff_of_nodup (HashMap.keys_nodup hw) hnd).2 ?_
    intro k
    rw [mem_keys_run_iff, List.mem_filter, mem_insertedKeys_iff]
    constructor
    · intro hl
      refine ⟨?_, hl⟩
      by_contra hno
      have := live_eq_false_of_not_inserted ops k (fun v hv => hno ⟨v, hv⟩)
      rw [this] at hl
      cases hl
    · exact fun h => h.2
  have hfilter : (insertedKeys ops).filter (erasedLast ops)
      = (insertedKeys ops).filter (fun k => !live ops k) := by
    refine List.filter_congr ?_
    intro k hk
    exact live_or_erasedLast_of_inserted ops k ((mem_insertedKeys_iff ops k).1 hk)
  have hsum := length_filter_add_length_filter_not (live ops) (insertedKeys ops)
  rw [hsize, hperm.length_eq, hfilter]
  omega

/-- C10, as the claim states it, fails: after insert 1, insert 2, erase 1,
insert 1 iteration meets key 2 before key 1, while the first successful
insertion of 1 (position 0) is before that of 2 (position 1). -/
theorem iteration_order_first_insertion_counterexample :
    ¬ (run id reinsertOps).keys.Pairwise (fun a b =>
        precedes (firstSuccessfulInsertion id reinsertOps a)
          (firstSuccessfulInsertion id reinsertOps b) = true) := by
  decide

/-- C10, amended. After every sequence of `insert` and `erase` calls on an
empty map, iteration from `begin()` to `end()` meets exactly the keys whose
most recent call is an `insert`, each once, ordered by the position of each
key's most recent successful insertion (the one that created its current
entry); the sequences are arbitrary, so this holds with and without resizes,
and `table_resize` keeps the order. -/
theorem iteration_order_by_creation (hash_function : K → Nat) (ops : List (Op K V)) :
    (∀ k, k ∈ (run hash_function ops).keys ↔ live ops k = true) ∧
    (run hash_function ops).keys.Nodup ∧
    (run hash_function ops).keys.Pairwise (fun a b =>
        precedes (lastSuccessfulInsertion hash_function ops a)
          (lastSuccessfulInsertion hash_function ops b) = true) ∧
    (∀ k ∈ (run hash_function ops).keys,
      ∃ i, lastSuccessfulInsertion hash_function ops k = some i) ∧
    (run hash_function ops).table_resize.keys = (run hash_function ops).keys :=
  ⟨mem_keys_run_iff hash_function ops, (wf_run hash_function ops).keys_nodup,
    (keys_ordered_by_creation hash_function ops).1,
    (keys_ordered_by_creation hash_function ops).2, rfl⟩


/-! ## The claims about copies, ranges and the invariants -/

/-- C11. The map that the copy constructor or the copy assignment builds from
a reachable map `m` iterates to the same sequence of pairs as `m`, in the same
order, has the same `size()`, and `find` yields for every key the same pair,
or `end()`, as in `m`. The source is a `const` reference: the functions take
it as an argument and build a new map. -/
theorem copy_round_trip [Inhabited V] (m self : HashMap K V) (hr : Reachable m) :
    (HashMap.ctor_copy m).entries = m.entries ∧
    (HashMap.ctor_copy m).size = m.size ∧
    (∀ k, (HashMap.ctor_copy m).find_pair k = m.find_pair k) ∧
    (HashMap.operator_assign self m).entries = m.entries ∧
    (HashMap.operator_assign self m).size = m.size ∧
    (∀ k, (HashMap.operator_assign self m).find_pair k = m.find_pair k) := by
  have hw := hr.wf
  have key : ∀ s : HashMap K V,
      (HashMap.operator_assign s m).entries = m.entries ∧
      (HashMap.operator_assign s m).size = m.size ∧
      (∀ k, (HashMap.operator_assign s m).find_pair k = m.find_pair k) := by
    intro s
    have hws := HashMap.wf_operator_assign s hw
    have he := entries_operator_assign s hw
    refine ⟨he, ?_, ?_⟩
    · rw [size_eq_length_entries hws, size_eq_length_entries hw, he]
    · intro k
      rw [find_pair_eq hws, find_pair_eq hw, he]
  exact ⟨(key _).1, (key _).2.1, (key _).2.2, (key self).1, (key self).2.1, (key self).2.2⟩

/-- The witness of C11: the source holds keys 3, 1, 2 in this order, in nodes
whose identities differ from those of the copy; the target of the assignment
held three other entries. -/
theorem copy_round_trip_witness :
    Reachable sample312 ∧
    ((HashMap.ctor_copy sample312).entries = sample312.entries ∧
    (HashMap.ctor_copy sample312).size = sample312.size ∧
    (∀ k, (HashMap.ctor_copy sample312).find_pair k = sample312.find_pair k) ∧
    (HashMap.operator_assign sample3 sample312).entries = sample312.entries ∧
    (HashMap.operator_assign sample3 sample312).size = sample312.size ∧
    (∀ k, (HashMap.operator_assign sample3 sample312).find_pair k = sample312.find_pair k)) :=
  ⟨Reachable.erase 7 (Reachable.ctor_range _ _),
    copy_round_trip sample312 sample3 (Reachable.erase 7 (Reachable.ctor_range _ _))⟩

/-- C12. After `clear()` the map has `size()` 0, `empty()` true, no entries,
`table_size_` 8 and eight empty chains; it is the map that the constructor
builds from the same hash function, so every sequence of statements run after
`clear()` gives the map, and with it every result, that it gives on a fresh
map. It holds in every state. -/
theorem clear_resets [Inhabited V] (m : HashMap K V) :
    m.clear.size = 0 ∧ m.clear.empty = true ∧ m.clear.entries = [] ∧
    m.clear.table_size_ = 8 ∧ m.clear.table_ = List.replicate 8 [] ∧
    m.clear = HashMap.ctor m.hasher_ ∧
    ∀ cmds : List (Cmd K V), cmds.foldl Cmd.apply m.clear = runCmds m.hasher_ cmds :=
  ⟨rfl, rfl, rfl, rfl, rfl, rfl, fun _ => rfl⟩

/-- C13. For a reachable map, `operator[]` changes the state as
`insert((k, default))` does. If `k` is absent, the entry `(k, default)` is
appended last, `size()` grows by 1 and the reference denotes the default
value; if `k` is present the state is unchanged and the reference denotes the
stored value. In both cases the reference denotes the value of the entry that
`find(k)` yields, and assigning `w` through it makes `find(k)` yield `(k, w)`
while `find` of every other key and every other entry stay as they were. -/
theorem subscript_insert_or_fetch [Inhabited V] (m : HashMap K V) (k : K) (hr : Reachable m) :
    (m.subscript k).1 = m.insert (k, default) ∧
    (m.find k = none →
      (m.subscript k).1.entries = m.entries ++ [(k, default)] ∧
      (m.subscript k).1.size = m.size + 1 ∧
      ∃ n, (m.subscript k).2 = some n ∧ n.key = k ∧ n.value = default) ∧
    (∀ n0, m.find k = some n0 → (m.subscript k).1 = m ∧ (m.subscript k).2 = some n0) ∧
    ∃ n, (m.subscript k).2 = some n ∧ n.key = k ∧ (m.subscript k).1.find k = some n ∧
      ∀ w, ((m.subscript k).1.assign_value n.id w).find_pair k = some (k, w) ∧
        (∀ k', k' ≠ k →
          ((m.subscript k).1.assign_value n.id w).find k' = (m.subscript k).1.find k') ∧
        ((m.subscript k).1.assign_value n.id w).entries
          = (m.subscript k).1.entries.map (fun e => if e.1 = k then (e.1, w) else e) := by
  have hw := hr.wf
  have hw1 : WF (m.insert (k, default)) := HashMap.wf_insert hw _
  obtain ⟨n, h1, h2, h3, h4⟩ := find_insert_self hw (k, (default : V))
  have hk : n.key = k := h2
  have hn : n ∈ (m.insert (k, default)).elements_list_ :=
    ((HashMap.find_eq_some_iff hw1 k n).1 h1).1
  refine ⟨rfl, ?_, ?_, n, h1, hk, h1, ?_⟩
  · intro hf
    have hf' : m.find (k, (default : V)).1 = none := hf
    exact ⟨HashMap.entries_insert_of_find_none _ hf',
      HashMap.elements_number_insert_of_find_none _ hf', n, h1, hk, h3 hf⟩
  · intro n0 hf
    have hf' : m.find (k, (default : V)).1 = some n0 := hf
    refine ⟨HashMap.insert_of_find_some _ hf', ?_⟩
    show (m.insert (k, default)).find k = some n0
    rw [HashMap.insert_of_find_some _ hf']
    exact hf
  · intro w
    refine ⟨?_, ?_, ?_⟩
    · have hself := find_assign_value_self hw1 hn w
      rw [hk] at hself
      show (((m.insert (k, default)).assign_value n.id w).find k).map _ = _
      rw [hself]
      simp [hk]
    · intro k' hne
      exact find_assign_value_of_ne hw1 hn w (hk ▸ hne)
    · show ((m.insert (k, default)).assign_value n.id w).entries = _
      rw [entries_assign_value hw1 hn w, hk]
      rfl

/-- The witness of C13: `operator[]` with the absent key 5 on the three-entry
map. -/
theorem subscript_insert_or_fetch_witness :
    Reachable sample3 ∧
    ((sample3.subscript 5).1 = sample3.insert (5, default) ∧
    (sample3.find 5 = none →
      (sample3.subscript 5).1.entries = sample3.entries ++ [(5, default)] ∧
      (sample3.subscript 5).1.size = sample3.size + 1 ∧
      ∃ n, (sample3.subscript 5).2 = some n ∧ n.key = 5 ∧ n.value = default) ∧
    (∀ n0, sample3.find 5 = some n0 →
      (sample3.subscript 5).1 = sample3 ∧ (sample3.subscript 5).2 = some n0) ∧
    ∃ n, (sample3.subscript 5).2 = some n ∧ n.key = 5 ∧
      (sample3.subscript 5).1.find 5 = some n ∧
      ∀ w, ((sample3.subscript 5).1.assign_value n.id w).find_pair 5 = some (5, w) ∧
        (∀ k', k' ≠ 5 →
          ((sample3.subscript 5).1.assign_value n.id w).find k'
            = (sample3.subscript 5).1.find k') ∧
        ((sample3.subscript 5).1.assign_value n.id w).entries
          = (sample3.subscript 5).1.entries.map (fun e => if e.1 = 5 then (e.1, w) else e)) :=
  ⟨Reachable.ctor_range _ _, subscript_insert_or_fetch sample3 5 (Reachable.ctor_range _ _)⟩


/-- C14. `insert_all_elements`, and the range and initializer-list constructor
built on it, is the left-to-right fold of `insert` over the sequence. On a
reachable map the entries after the call are the old entries followed by the
pairs whose key was neither in the map nor earlier in the sequence: `find` of
a key already in the map yields what it yielded, and `find` of a new key
yields the value of its first pair in the sequence. -/
theorem insert_all_elements_is_fold [Inhabited V] (m : HashMap K V) (xs : List (K × V))
    (hash_function : K → Nat) (hr : Reachable m) :
    m.insert_all_elements xs = xs.foldl HashMap.insert m ∧
    HashMap.ctor_range xs hash_function
      = xs.foldl HashMap.insert (HashMap.ctor hash_function) ∧
    (m.insert_all_elements xs).entries = m.entries ++ firstOccurrences m.keys xs ∧
    (∀ k, k ∈ m.keys → (m.insert_all_elements xs).find_pair k = m.find_pair k) ∧
    (∀ pre k v post, xs = pre ++ (k, v) :: post → k ∉ m.keys → k ∉ pre.map Prod.fst →
      (m.insert_all_elements xs).find_pair k = some (k, v)) := by
  have hw := hr.wf
  refine ⟨insert_all_elements_eq_foldl m xs, insert_all_elements_eq_foldl _ xs,
    entries_insert_all_elements hw xs, ?_, ?_⟩
  · intro k hk
    exact find_pair_insert_all_elements_of_mem hw xs hk
  · intro pre k v post hxs hk hpre
    refine find_pair_of_mem_entries (HashMap.wf_insert_all_elements hw xs) ?_
    rw [entries_insert_all_elements hw xs, hxs]
    exact List.mem_append_right _ (mem_firstOccurrences _ pre post k v hk hpre)

/-- The witness of C14: the pairs `(1, 11)`, `(4, 20)`, `(4, 30)`, `(3, 5)`
inserted into the map with keys 1, 2, 3. -/
theorem insert_all_elements_is_fold_witness :
    Reachable sample3 ∧
    (sample3.insert_all_elements [(1, 11), (4, 20), (4, 30), (3, 5)]
      = [(1, 11), (4, 20), (4, 30), (3, 5)].foldl HashMap.insert sample3 ∧
    HashMap.ctor_range [(1, 11), (4, 20), (4, 30), (3, 5)] id
      = [(1, 11), (4, 20), (4, 30), (3, 5)].foldl HashMap.insert (HashMap.ctor id) ∧
    (sample3.insert_all_elements [(1, 11), (4, 20), (4, 30), (3, 5)]).entries
      = sample3.entries ++ firstOccurrences sample3.keys [(1, 11), (4, 20), (4, 30), (3, 5)] ∧
    (∀ k, k ∈ sample3.keys →
      (sample3.insert_all_elements [(1, 11), (4, 20), (4, 30), (3, 5)]).find_pair k
        = sample3.find_pair k) ∧
    (∀ pre k v post, [(1, 11), (4, 20), (4, 30), (3, 5)] = pre ++ (k, v) :: post →
      k ∉ sample3.keys → k ∉ pre.map Prod.fst →
      (sample3.insert_all_elements [(1, 11), (4, 20), (4, 30), (3, 5)]).find_pair k
        = some (k, v))) :=
  ⟨Reachable.ctor_range _ _,
    insert_all_elements_is_fold sample3 [(1, 11), (4, 20), (4, 30), (3, 5)] id
      (Reachable.ctor_range _ _)⟩

/-- C15. An `insert` of an absent key into a reachable map doubles
`table_size_` exactly when the incremented count reaches `2 * table_size_`,
and leaves it as it was otherwise. Sixteen pairs with pairwise distinct keys,
inserted into a map constructed empty, keep `table_size_` at 8 after each of
the first fifteen insertions and bring it to 16 with the sixteenth; all
sixteen keys are then found with their values. -/
theorem resize_trigger [Inhabited V] (hash_function : K → Nat) (m : HashMap K V) (k : K) (v : V)
    (xs : List (K × V)) (hr : Reachable m) (hf : m.find k = none)
    (hnd : (xs.map Prod.fst).Nodup) (hlen : xs.length = 16) :
    ((m.insert (k, v)).table_size_ = 2 * m.table_size_
      ↔ 2 * m.table_size_ ≤ m.elements_number_ + 1) ∧
    (¬ 2 * m.table_size_ ≤ m.elements_number_ + 1 →
      (m.insert (k, v)).table_size_ = m.table_size_) ∧
    (∀ i, i ≤ 15 →
      ((HashMap.ctor hash_function).insert_all_elements (xs.take i)).table_size_ = 8) ∧
    ((HashMap.ctor hash_function).insert_all_elements xs).table_size_ = 16 ∧
    ∀ e ∈ xs, ((HashMap.ctor hash_function).insert_all_elements xs).find_pair e.1 = some e := by
  have hw := hr.wf
  have hpos := hw.size_pos
  have hts := table_size_insert_of_find_none (k, v) hf
  simp only [kAlpha] at hts
  refine ⟨?_, ?_, ?_, at_limit hash_function xs hnd hlen, ?_⟩
  · rw [hts]
    split <;> omega
  · intro hno
    rw [hts, if_neg hno]
  · intro i hi
    have hsub : (xs.take i).Sublist xs := List.take_sublist _ _
    refine (below_limit hash_function (xs.take i) (hnd.sublist (hsub.map _)) ?_).1
    rw [List.length_take]
    omega
  · intro e he
    have hwc : WF (HashMap.ctor hash_function : HashMap K V) := HashMap.wf_ctor _
    refine find_pair_of_mem_entries (HashMap.wf_insert_all_elements hwc xs) ?_
    rw [entries_insert_all_elements hwc xs,
      firstOccurrences_of_nodup _ _ hnd (by simp [HashMap.keys, HashMap.ctor])]
    exact List.mem_append_right _ he

/-- The witness of C15: the sixteenth insertion into the fifteen-entry map,
and the sixteen keys 0, 3, ..., 45. -/
theorem resize_trigger_witness :
    Reachable sample15 ∧ sample15.find 15 = none ∧ (sixteen.map Prod.fst).Nodup ∧
    sixteen.length = 16 ∧
    (((sample15.insert (15, 150)).table_size_ = 2 * sample15.table_size_
      ↔ 2 * sample15.table_size_ ≤ sample15.elements_number_ + 1) ∧
    (¬ 2 * sample15.table_size_ ≤ sample15.elements_number_ + 1 →
      (sample15.insert (15, 150)).table_size_ = sample15.table_size_) ∧
    (∀ i, i ≤ 15 → ((HashMap.ctor id).insert_all_elements (sixteen.take i)).table_size_ = 8) ∧
    ((HashMap.ctor id).insert_all_elements sixteen).table_size_ = 16 ∧
    ∀ e ∈ sixteen, ((HashMap.ctor id).insert_all_elements sixteen).find_pair e.1 = some e) :=
  ⟨Reachable.ctor_range _ _, by decide, by decide, by decide,
    resize_trigger id sample15 15 150 sixteen (Reachable.ctor_range _ _) (by decide)
      (by decide) (by decide)⟩

/-- C16. `table_resize` on a reachable map leaves the entry list (keys, values,
order) and `elements_number_` as they were, makes `table_size_` twice its old
value, and `find` returns for every key the same entry, or `end()`, as
before. -/
theorem table_resize_frame [Inhabited V] (m : HashMap K V) (hr : Reachable m) :
    m.table_resize.elements_list_ = m.elements_list_ ∧
    m.table_resize.entries = m.entries ∧
    m.table_resize.elements_number_ = m.elements_number_ ∧
    m.table_resize.table_size_ = 2 * m.table_size_ ∧
    ∀ k, m.table_resize.find k = m.find k :=
  ⟨rfl, rfl, rfl, by simp [HashMap.table_resize, kAlpha, Nat.mul_comm],
    fun k => find_table_resize hr.wf k⟩

/-- The witness of C16: `table_resize` on the fifteen-entry map. -/
theorem table_resize_frame_witness :
    Reachable sample15 ∧
    (sample15.table_resize.elements_list_ = sample15.elements_list_ ∧
    sample15.table_resize.entries = sample15.entries ∧
    sample15.table_resize.elements_number_ = sample15.elements_number_ ∧
    sample15.table_resize.table_size_ = 2 * sample15.table_size_ ∧
    ∀ k, sample15.table_resize.find k = sample15.find k) :=
  ⟨Reachable.ctor_range _ _, table_resize_frame sample15 (Reachable.ctor_range _ _)⟩

/-- C17. In every reachable state the table has `table_size_` chains, the
nodes of the entry list have pairwise distinct identities, each node has
exactly one iterator in the whole table, that iterator is in the chain with
index `hasher_(key) % table_size_`, and every iterator in every chain
designates a node of the entry list. -/
theorem bucket_index_consistent [Inhabited V] (m : HashMap K V) (hr : Reachable m) :
    m.table_.length = m.table_size_ ∧
    (m.elements_list_.map Node.id).Nodup ∧
    (∀ n ∈ m.elements_list_,
      m.table_.flatten.count n.id = 1 ∧
      m.hasher_ n.key % m.table_size_ < m.table_.length ∧
      n.id ∈ chainAt m.table_ (m.hasher_ n.key % m.table_size_)) ∧
    (∀ c ∈ m.table_, ∀ h ∈ c, ∃ n ∈ m.elements_list_, n.id = h) := by
  have hw := hr.wf
  refine ⟨hw.table_len, hw.ids_nodup, ?_, ?_⟩
  · intro n hn
    refine ⟨count_table hw hn, ?_, hw.filed n hn⟩
    rw [hw.table_len]
    exact Nat.mod_lt _ hw.size_pos
  · intro c hc h hh
    exact table_handles_live hw hc hh

/-- The witness of C17: the map with keys 3, 1, 2 after an erase. -/
theorem bucket_index_consistent_witness :
    Reachable sample312 ∧
    (sample312.table_.length = sample312.table_size_ ∧
    (sample312.elements_list_.map Node.id).Nodup ∧
    (∀ n ∈ sample312.elements_list_,
      sample312.table_.flatten.count n.id = 1 ∧
      sample312.hasher_ n.key % sample312.table_size_ < sample312.table_.length ∧
      n.id ∈ chainAt sample312.table_ (sample312.hasher_ n.key % sample312.table_size_)) ∧
    (∀ c ∈ sample312.table_, ∀ h ∈ c, ∃ n ∈ sample312.elements_list_, n.id = h)) :=
  ⟨Reachable.erase 7 (Reachable.ctor_range _ _),
    bucket_index_consistent sample312 (Reachable.erase 7 (Reachable.ctor_range _ _))⟩

/-- C18. In every reachable state `size()` is the length of the entry list and
the sum of the lengths of all chains, so `empty()` is true exactly when the
entry list is empty, that is when `begin() == end()`. -/
theorem count_invariant [Inhabited V] (m : HashMap K V) (hr : Reachable m) :
    m.size = m.elements_list_.length ∧
    m.size = (m.table_.map List.length).sum ∧
    (m.empty = true ↔ m.elements_list_ = []) := by
  have hw := hr.wf
  refine ⟨hw.count, ?_, ?_⟩
  · rw [← List.length_flatten, (flatten_table_perm hw).length_eq, List.length_map]
    exact hw.count
  · simp only [HashMap.empty, beq_iff_eq, hw.count, List.length_eq_zero]

/-- The witness of C18: the fifteen-entry map. -/
theorem count_invariant_witness :
    Reachable sample15 ∧
    (sample15.size = sample15.elements_list_.length ∧
    sample15.size = (sample15.table_.map List.length).sum ∧
    (sample15.empty = true ↔ sample15.elements_list_ = [])) :=
  ⟨Reachable.ctor_range _ _, count_invariant sample15 (Reachable.ctor_range _ _)⟩

/-- C19. For every hash function and every sequence of `insert`, `m[k] = w`,
`erase` and `clear` statements on a map constructed empty, the iteration
sequence, `size()`, and `find(k)` and `at(k)` for every key are those of the
reference model, a plain list of pairs; so two maps driven by the same
statements with different hash functions give the same results. -/
theorem refines_association_list [Inhabited V] (hash_function : K → Nat)
    (cmds : List (Cmd K V)) :
    (runCmds hash_function cmds).entries = Reference.run cmds ∧
    (runCmds hash_function cmds).size = (Reference.run cmds).length ∧
    (∀ k, (runCmds hash_function cmds).find_pair k = Reference.find (Reference.run cmds) k) ∧
    (∀ k, (runCmds hash_function cmds).at_ k = Reference.at_ (Reference.run cmds) k) ∧
    ∀ other_hash : K → Nat,
      (runCmds other_hash cmds).entries = (runCmds hash_function cmds).entries ∧
      (runCmds other_hash cmds).size = (runCmds hash_function cmds).size ∧
      (∀ k, (runCmds other_hash cmds).find_pair k = (runCmds hash_function cmds).find_pair k) ∧
      (∀ k, (runCmds other_hash cmds).at_ k = (runCmds hash_function cmds).at_ k) := by
  have key : ∀ h : K → Nat,
      (runCmds h cmds).entries = Reference.run cmds ∧
      (runCmds h cmds).size = (Reference.run cmds).length ∧
      (∀ k, (runCmds h cmds).find_pair k = Reference.find (Reference.run cmds) k) ∧
      (∀ k, (runCmds h cmds).at_ k = Reference.at_ (Reference.run cmds) k) := by
    intro h
    obtain ⟨hw, he⟩ := runCmds_refines h cmds
    refine ⟨he, ?_, ?_, ?_⟩
    · rw [size_eq_length_entries hw, he]
    · intro k; rw [find_pair_eq hw, he]
    · intro k; rw [at_eq hw, he]
  obtain ⟨a1, a2, a3, a4⟩ := key hash_function
  refine ⟨a1, a2, a3, a4, ?_⟩
  intro other_hash
  obtain ⟨b1, b2, b3, b4⟩ := key other_hash
  exact ⟨b1.trans a1.symm, b2.trans a2.symm, fun k => (b3 k).trans (a3 k).symm,
    fun k => (b4 k).trans (a4 k).symm⟩

/-- C20. In every reachable state the keys of the entry list are pairwise
distinct: iteration meets no key twice, and two nodes of the list with the
same key are the same node. -/
theorem keys_unique [Inhabited V] (m : HashMap K V) (hr : Reachable m) :
    m.keys.Nodup ∧
    (∀ k, m.keys.count k ≤ 1) ∧
    (∀ n1 ∈ m.elements_list_, ∀ n2 ∈ m.elements_list_, n1.key = n2.key → n1 = n2) := by
  have hw := hr.wf
  refine ⟨hw.keys_nodup, List.nodup_iff_count_le_one.1 hw.keys_nodup, ?_⟩
  intro n1 h1 n2 h2 he
  exact List.inj_on_of_nodup_map hw.keys_nodup h1 h2 he

/-- The witness of C20: a sequence with duplicate keys inserted into the map
with keys 1, 2, 3, then `operator[]` on a present key. -/
theorem keys_unique_witness :
    Reachable ((sample3.insert_all_elements [(1, 11), (4, 20), (4, 30)]).subscript 4).1 ∧
    (((sample3.insert_all_elements [(1, 11), (4, 20), (4, 30)]).subscript 4).1.keys.Nodup ∧
    (∀ k, ((sample3.insert_all_elements [(1, 11), (4, 20), (4, 30)]).subscript 4).1.keys.count k
      ≤ 1) ∧
    (∀ n1 ∈ ((sample3.insert_all_elements [(1, 11), (4, 20), (4, 30)]).subscript 4).1.elements_list_,
      ∀ n2 ∈ ((sample3.insert_all_elements [(1, 11), (4, 20), (4, 30)]).subscript 4).1.elements_list_,
      n1.key = n2.key → n1 = n2)) :=
  ⟨Reachable.subscript 4 (Reachable.insert_all_elements _ (Reachable.ctor_range _ _)),
    keys_unique _
      (Reachable.subscript 4 (Reachable.insert_all_elements _ (Reachable.ctor_range _ _)))⟩

end Claims

end HashMapModel
